import Mathlib

/-!
Verification development for the software rasterizer repository
(src/camera.rs, src/geometry.rs, src/lib.rs, src/my_app.rs, src/renderer.rs).

f32 values are embedded as exact rationals; f32 trigonometric functions,
square roots and vector normalization are passed in as parameters of the
model where the code uses them, so every definition below stays executable.
Buffers (Vec of u32 and f32) are embedded as Lean lists.
-/

namespace SoftRast

/-- The 1e-6 guard used by draw_triangle in renderer.rs and lib.rs. -/
def epsGuard : ℚ := 1 / 1000000

/-- The f32 MAX sentinel, (2 - 2 to the minus 23) times 2 to the 127,
used as the clear value of the depth buffer. -/
def f32MAX : ℚ := (2 ^ 24 - 1) * 2 ^ 104

/-- Rust f32 clamp (used with lo = 0, hi = 1 in Texture::sample). -/
def clampQ (q lo hi : ℚ) : ℚ := if q < lo then lo else if hi < q then hi else q

/-- Rust f32 round: round half away from zero. -/
def roundF32 (q : ℚ) : ℤ := if 0 ≤ q then ⌊q + 1/2⌋ else -⌊-q + 1/2⌋

/-- Rust integer cast i64 to u32 style saturation: clamp into [0, 2^32 - 1].
Used after rounding in Texture::sample. -/
def intToU32 (i : ℤ) : ℕ := min i.toNat (2 ^ 32 - 1)

/-- Rust f32 as u32 cast: truncate toward zero and saturate into [0, 2^32-1]. -/
def castU32 (q : ℚ) : ℕ := if q ≤ 0 then 0 else min ⌊q⌋.toNat (2 ^ 32 - 1)

/-- Rust f32 as i32 cast: truncate toward zero and saturate. -/
def castI32 (q : ℚ) : ℤ :=
  max (-(2 ^ 31)) (min (if q < 0 ∧ (⌊q⌋ : ℚ) < q then ⌊q⌋ + 1 else ⌊q⌋) (2 ^ 31 - 1))

/-- The inclusive u32 range a..=b as a list (empty when b < a). -/
def natRangeIncl (a b : ℕ) : List ℕ := (List.range (b + 1 - a)).map (a + ·)

/-- The exclusive u32 range a..b as a list (empty when b ≤ a). -/
def natRangeExcl (a b : ℕ) : List ℕ := (List.range (b - a)).map (a + ·)

/-- Chunks of three with the trailing partial chunk kept, as rayon par_chunks(3)
yields it (the partial chunk has fewer than three elements). -/
def chunks3 {α : Type} : List α → List (List α)
  | a :: b :: c :: rest => [a, b, c] :: chunks3 rest
  | [] => []
  | l => [l]

/-- Chunks of exactly three, dropping a trailing partial chunk, as
slice::chunks_exact(3) yields them. -/
def chunksExact3 {α : Type} : List α → List (α × α × α)
  | a :: b :: c :: rest => (a, b, c) :: chunksExact3 rest
  | _ => []

/-- nalgebra Point2 of f32. -/
structure Point2M where
  x : ℚ
  y : ℚ
deriving DecidableEq

/-- nalgebra Vector3 of f32. -/
structure Vec3M where
  x : ℚ
  y : ℚ
  z : ℚ
deriving DecidableEq

/-- nalgebra Point4 / Vector4 of f32. -/
structure Vec4M where
  x : ℚ
  y : ℚ
  z : ℚ
  w : ℚ
deriving DecidableEq

def Point2M.sub (p q : Point2M) : Point2M := ⟨p.x - q.x, p.y - q.y⟩

def Point2M.dot (p q : Point2M) : ℚ := p.x * q.x + p.y * q.y

def Point2M.smul (c : ℚ) (p : Point2M) : Point2M := ⟨c * p.x, c * p.y⟩

def Point2M.add (p q : Point2M) : Point2M := ⟨p.x + q.x, p.y + q.y⟩

def Vec3M.dot (u v : Vec3M) : ℚ := u.x * v.x + u.y * v.y + u.z * v.z

def Vec3M.add (u v : Vec3M) : Vec3M := ⟨u.x + v.x, u.y + v.y, u.z + v.z⟩

def Vec3M.smul (c : ℚ) (u : Vec3M) : Vec3M := ⟨c * u.x, c * u.y, c * u.z⟩

def Vec4M.xy (v : Vec4M) : Point2M := ⟨v.x, v.y⟩

def Vec4M.xyz (v : Vec4M) : Vec3M := ⟨v.x, v.y, v.z⟩

/-- Componentwise division of a homogeneous point by a scalar, as
v.position / v.position.w does in clip_to_ndc. -/
def Vec4M.divScalar (v : Vec4M) (c : ℚ) : Vec4M := ⟨v.x / c, v.y / c, v.z / c, v.w / c⟩

/-- A 4x4 matrix of f32, stored as rows. -/
structure Mat4M where
  r0 : Vec4M
  r1 : Vec4M
  r2 : Vec4M
  r3 : Vec4M
deriving DecidableEq

def Vec4M.dot (u v : Vec4M) : ℚ := u.x * v.x + u.y * v.y + u.z * v.z + u.w * v.w

def Mat4M.mulVec (m : Mat4M) (v : Vec4M) : Vec4M :=
  ⟨m.r0.dot v, m.r1.dot v, m.r2.dot v, m.r3.dot v⟩

def Mat4M.col0 (m : Mat4M) : Vec4M := ⟨m.r0.x, m.r1.x, m.r2.x, m.r3.x⟩
def Mat4M.col1 (m : Mat4M) : Vec4M := ⟨m.r0.y, m.r1.y, m.r2.y, m.r3.y⟩
def Mat4M.col2 (m : Mat4M) : Vec4M := ⟨m.r0.z, m.r1.z, m.r2.z, m.r3.z⟩
def Mat4M.col3 (m : Mat4M) : Vec4M := ⟨m.r0.w, m.r1.w, m.r2.w, m.r3.w⟩

def Mat4M.mul (m n : Mat4M) : Mat4M :=
  ⟨⟨m.r0.dot n.col0, m.r0.dot n.col1, m.r0.dot n.col2, m.r0.dot n.col3⟩,
   ⟨m.r1.dot n.col0, m.r1.dot n.col1, m.r1.dot n.col2, m.r1.dot n.col3⟩,
   ⟨m.r2.dot n.col0, m.r2.dot n.col1, m.r2.dot n.col2, m.r2.dot n.col3⟩,
   ⟨m.r3.dot n.col0, m.r3.dot n.col1, m.r3.dot n.col2, m.r3.dot n.col3⟩⟩

/-- The identity matrix. -/
def Mat4M.id : Mat4M :=
  ⟨⟨1, 0, 0, 0⟩, ⟨0, 1, 0, 0⟩, ⟨0, 0, 1, 0⟩, ⟨0, 0, 0, 1⟩⟩

/-- nalgebra Matrix4::transform_point: apply the 3x3 block and translation to
(p, 1), and divide by the resulting homogeneous coordinate when it is
nonzero, leaving the product undivided when it is zero. -/
def Mat4M.transformPoint (m : Mat4M) (p : Vec3M) : Vec3M :=
  let hp : Vec4M := ⟨p.x, p.y, p.z, 1⟩
  let n : ℚ := m.r3.dot hp
  if n ≠ 0 then
    ⟨m.r0.dot hp / n, m.r1.dot hp / n, m.r2.dot hp / n⟩
  else
    ⟨m.r0.dot hp, m.r1.dot hp, m.r2.dot hp⟩

/-- nalgebra Matrix4::new_perspective(aspect, fovy, znear, zfar).  The two
diagonal entries sx and sy stand for 1/(aspect*tan(fovy/2)) and 1/tan(fovy/2),
which are irrational in general and are therefore parameters of the model;
the z row depends only on znear and zfar, exactly as below. -/
def perspectiveMatrix (sx sy near far : ℚ) : Mat4M :=
  ⟨⟨sx, 0, 0, 0⟩,
   ⟨0, sy, 0, 0⟩,
   ⟨0, 0, -(far + near) / (far - near), -(2 * far * near) / (far - near)⟩,
   ⟨0, 0, -1, 0⟩⟩

/-- Color from renderer.rs (lib.rs has an identical Color). -/
structure ColorM where
  r : ℚ
  g : ℚ
  b : ℚ
  a : ℚ
deriving DecidableEq

def ColorM.mul (c o : ColorM) : ColorM := ⟨c.r * o.r, c.g * o.g, c.b * o.b, c.a * o.a⟩

/-- Color::from_rgba with the four u8 channels. -/
def ColorM.from_rgba (r g b a : ℕ) : ColorM :=
  ⟨(r : ℚ) / 255, (g : ℚ) / 255, (b : ℚ) / 255, (a : ℚ) / 255⟩

/-- Color::interpolate against two other colors with barycentric weights. -/
def ColorM.interpolate (c : ColorM) (b2 c2 : ColorM) (w : Vec3M) : ColorM :=
  ⟨c.r * w.x + b2.r * w.y + c2.r * w.z,
   c.g * w.x + b2.g * w.y + c2.g * w.z,
   c.b * w.x + b2.b * w.y + c2.b * w.z,
   1⟩

/-- Color::as_u32: pack into 0x00RRGGBB with f32 to u32 casts. -/
def ColorM.as_u32 (c : ColorM) : ℕ :=
  let red := castU32 (c.r * 255)
  let green := castU32 (c.g * 255)
  let blue := castU32 (c.b * 255)
  blue ||| (green <<< 8) ||| (red <<< 16)

def ColorM.scalar_mul (c : ColorM) (s : ℚ) : ColorM := ⟨c.r * s, c.g * s, c.b * s, c.a⟩

def whiteColor : ColorM := ⟨1, 1, 1, 1⟩

/-- Texture from geometry.rs: the DynamicImage is embedded as its extent and
a total pixel function returning the four u8 channels. -/
structure TextureM where
  width : ℕ
  height : ℕ
  pix : ℕ → ℕ → ℕ × ℕ × ℕ × ℕ

/-- Texture::sample from geometry.rs: clamp each UV component into [0,1],
scale by (dimension - 1), round, flip V, cast to u32, then look the pixel up
only when the coordinates lie inside the image. -/
def TextureM.sample (t : TextureM) (uv : Point2M) : Option ColorM :=
  let x := intToU32 (roundF32 (clampQ uv.x 0 1 * ((t.width : ℚ) - 1)))
  let y := intToU32 (roundF32 ((1 - clampQ uv.y 0 1) * ((t.height : ℚ) - 1)))
  if x < t.width ∧ y < t.height then
    some (ColorM.from_rgba (t.pix x y).1 (t.pix x y).2.1 (t.pix x y).2.2.1 (t.pix x y).2.2.2)
  else
    none

/-- Vertex from geometry.rs: a homogeneous position with optional attributes. -/
structure VertexM where
  position : Vec4M
  normal : Option Vec3M
  color : Option ColorM
  uv : Option Point2M
deriving DecidableEq

/-- A triangle: three consecutive vertices of the flat vertex list, a, b, c
standing for triangle[0], triangle[1], triangle[2]. -/
structure TriangleM where
  a : VertexM
  b : VertexM
  c : VertexM
deriving DecidableEq

/-- geometry.rs perpendicular_vector. -/
def perpendicular_vector (v : Point2M) : Point2M := ⟨v.y, -v.x⟩

/-- geometry.rs signed_area of points a, b, c. -/
def signed_area (a b c : Point2M) : ℚ :=
  (c.sub a).dot (perpendicular_vector (b.sub a)) / 2

/-- geometry.rs triangle_barycentric: the three edge signed areas divided by
their sum (the division is total rational division). -/
def triangle_barycentric (t : TriangleM) (p : Point2M) : Vec3M :=
  let a := t.a.position.xy
  let b := t.b.position.xy
  let c := t.c.position.xy
  let area_abp := signed_area a b p
  let area_bcp := signed_area b c p
  let area_cap := signed_area c a p
  let inv_area_sum := 1 / (area_abp + area_bcp + area_cap)
  ⟨area_bcp * inv_area_sum, area_cap * inv_area_sum, area_abp * inv_area_sum⟩

/-- Modelled from the spec: point_in_triangle is called by both rasterizers
but its definition is absent from src (only a commented-out older variant
remains in geometry.rs).  Following sections 4.3 and 4.6 of the spec, it
returns the inside test (all three edge signed areas nonnegative, assuming
consistent winding) together with the three barycentric weights, each one
edge signed area divided by the total, exactly as the live
triangle_barycentric computes them. -/
def point_in_triangle (a b c p : Point2M) : Bool × Vec3M :=
  let area_abp := signed_area a b p
  let area_bcp := signed_area b c p
  let area_cap := signed_area c a p
  let inv_area_sum := 1 / (area_abp + area_bcp + area_cap)
  (decide (0 ≤ area_abp) && decide (0 ≤ area_bcp) && decide (0 ≤ area_cap),
   ⟨area_bcp * inv_area_sum, area_cap * inv_area_sum, area_abp * inv_area_sum⟩)

/-- Bounds from geometry.rs (the two argument variant with screen clamping;
the call sites in renderer.rs and lib.rs predate the screen parameter, so the
draw functions below receive the screen extent explicitly). -/
structure BoundsM where
  min_x : ℚ
  min_y : ℚ
  max_x : ℚ
  max_y : ℚ
deriving DecidableEq

/-- Bounds::new on a triangle: min and max of the vertex positions, clamped
below by 0 and above by the screen extent. -/
def BoundsM.new (t : TriangleM) (screen : ℕ × ℕ) : BoundsM :=
  let mnx := min (min t.a.position.x t.b.position.x) t.c.position.x
  let mny := min (min t.a.position.y t.b.position.y) t.c.position.y
  let mxx := max (max t.a.position.x t.b.position.x) t.c.position.x
  let mxy := max (max t.a.position.y t.b.position.y) t.c.position.y
  ⟨max mnx 0, max mny 0, min mxx (screen.1 : ℚ), min mxy (screen.2 : ℚ)⟩

/-- Bounds::x_range: the inclusive u32 range from min_x to max_x. -/
def BoundsM.x_range (b : BoundsM) : List ℕ := natRangeIncl (castU32 b.min_x) (castU32 b.max_x)

/-- Bounds::y_range: the inclusive u32 range from min_y to max_y. -/
def BoundsM.y_range (b : BoundsM) : List ℕ := natRangeIncl (castU32 b.min_y) (castU32 b.max_y)

/-- Vertex::clip_to_ndc: perspective divide by w unless w is exactly zero. -/
def VertexM.clip_to_ndc (v : VertexM) : VertexM :=
  { v with position := if v.position.w ≠ 0 then v.position.divScalar v.position.w else v.position }

/-- Vertex::ndc_to_screen for a screen extent. -/
def VertexM.ndc_to_screen (v : VertexM) (size : ℕ × ℕ) : VertexM :=
  { v with position := { v.position with
      x := (v.position.x + 1) * (1/2) * (size.1 : ℚ),
      y := (1 - v.position.y) * (1/2) * (size.2 : ℚ) } }

/-- Vertex::world_to_clip: transform_point on the xyz part, then re-extend
homogeneously with w = 1. -/
def VertexM.world_to_clip (v : VertexM) (mvp : Mat4M) : VertexM :=
  let p := mvp.transformPoint v.position.xyz
  { v with position := ⟨p.x, p.y, p.z, 1⟩ }

/-- Vertex::update_normal: transform the optional normal by the rigid
transform rotation (passed as the function rotv) and renormalize (the f32
normalization is passed as the function nml). -/
def VertexM.update_normal (v : VertexM) (rotv : Vec3M → Vec3M) (nml : Vec3M → Vec3M) : VertexM :=
  match v.normal with
  | some n => { v with normal := some (nml (rotv n)) }
  | none => v

/-- Material from lib.rs of the renderer.rs snapshot (referenced by my_app.rs
and renderer.rs). -/
inductive MaterialM where
  | SolidColor (c : ColorM)
  | VertexColors
  | Textured (t : TextureM)
  | LitTexture (t : TextureM) (light_dir : Vec3M)
  | LitSolid (c : ColorM) (light_dir : Vec3M)

/-- renderer.rs calculate_uvs: interpolate the three vertex UVs when all are
present (the source collects the present ones and requires three). -/
def calculate_uvs (t : TriangleM) (w : Vec3M) : Option Point2M :=
  match t.a.uv, t.b.uv, t.c.uv with
  | some u0, some u1, some u2 =>
      some ((((Point2M.mk 0 0).add (Point2M.smul w.x u0)).add
        (Point2M.smul w.y u1)).add (Point2M.smul w.z u2))
  | _, _, _ => none

/-- renderer.rs calculate_normals: interpolate the three vertex normals when
all are present and renormalize via nml. -/
def calculate_normals (nml : Vec3M → Vec3M) (t : TriangleM) (w : Vec3M) : Option Vec3M :=
  match t.a.normal, t.b.normal, t.c.normal with
  | some n0, some n1, some n2 =>
      some (nml ((((Vec3M.mk 0 0 0).add (Vec3M.smul w.x n0)).add
        (Vec3M.smul w.y n1)).add (Vec3M.smul w.z n2)))
  | _, _, _ => none

/-- The material match block of renderer.rs draw_triangle computing
texture_color for one pixel. -/
def shade_material (nml : Vec3M → Vec3M) (mat : MaterialM) (t : TriangleM) (w : Vec3M) : ColorM :=
  match mat with
  | MaterialM.SolidColor c => c
  | MaterialM.VertexColors =>
      match t.a.color, t.b.color, t.c.color with
      | some c1, some c2, some c3 => c1.interpolate c2 c3 w
      | _, _, _ => whiteColor
  | MaterialM.Textured tex =>
      match calculate_uvs t w with
      | some uv =>
          match tex.sample uv with
          | some c => c
          | none => whiteColor
      | none => whiteColor
  | MaterialM.LitTexture tex light_dir =>
      let uv := calculate_uvs t w
      let color := match tex.sample (uv.getD ⟨0, 0⟩) with
        | some c => c
        | none => whiteColor
      match calculate_normals nml t w with
      | some n => color.scalar_mul (max (n.dot light_dir) (1/100))
      | none => color
  | MaterialM.LitSolid c light_dir =>
      match calculate_normals nml t w with
      | some n => c.scalar_mul (max (n.dot light_dir) (1/100))
      | none => c

/-- RenderTarget from renderer.rs (lib.rs lines 126-148 declare the same
structure): a color buffer of u32 and a depth buffer of f32. -/
structure RenderTargetM where
  color : List ℕ
  depth : List ℚ
  width : ℕ
  height : ℕ
  clear_color : ℕ

/-- RenderTarget::new: both buffers have length width * height, the color
buffer filled with u32 MIN = 0 and the depth buffer with f32 MAX. -/
def RenderTargetM.new (width height : ℕ) : RenderTargetM :=
  { color := List.replicate (width * height) 0,
    depth := List.replicate (width * height) f32MAX,
    width := width, height := height, clear_color := 0 }

/-- RenderTarget::clear: fill color with clear_color and depth with f32 MAX,
keeping the buffer lengths. -/
def RenderTargetM.clear (t : RenderTargetM) : RenderTargetM :=
  { t with color := List.replicate t.color.length t.clear_color,
           depth := List.replicate t.depth.length f32MAX }

/-- RenderSlice from renderer.rs; the field named end in the source is a Lean
keyword and is called stop here. -/
structure RenderSliceM where
  color_slice : List ℕ
  depth_slice : List ℚ
  start : ℕ
  stop : ℕ
  width : ℕ

/-- The loop body of RenderTarget::create_slices: thread i takes the rows
from i * rows_per_thread (capped at height), splitting the row block off the
front of the remaining color and depth buffers; iteration stops when the
start row reaches the height or the thread count is exhausted. -/
def create_slices_go (width hgt r : ℕ) : ℕ → ℕ → List ℕ → List ℚ → List RenderSliceM
  | 0, _, _, _ => []
  | fuel + 1, i, color, depth =>
    let y_start := i * r
    if hgt ≤ y_start then []
    else
      let y_end := min (y_start + r) hgt
      let len := y_end * width - y_start * width
      { color_slice := color.take len, depth_slice := depth.take len,
        start := y_start, stop := y_end, width := width } ::
        create_slices_go width hgt r fuel (i + 1) (color.drop len) (depth.drop len)

/-- RenderTarget::create_slices with num_threads passed explicitly (the
source reads rayon::current_num_threads()); rows_per_thread is the ceiling
division (height + num_threads - 1) / num_threads. -/
def RenderTargetM.create_slices (t : RenderTargetM) (num_threads : ℕ) : List RenderSliceM :=
  let rows_per_thread := (t.height + num_threads - 1) / num_threads
  create_slices_go t.width t.height rows_per_thread num_threads 0 t.color t.depth

/-- The row range (start, end) of a slice list. -/
def slice_ranges (slices : List RenderSliceM) : List (ℕ × ℕ) :=
  slices.map fun s => (s.start, s.stop)

/-- A list of ranges tiles the interval from a to b: each range starts where
the previous one ended, is nonempty, and the last ends at b. -/
def IsTiling : ℕ → List (ℕ × ℕ) → ℕ → Prop
  | a, [], b => a = b
  | a, p :: rest, b => p.1 = a ∧ a < p.2 ∧ IsTiling p.2 rest b

/-- The per-vertex reciprocal depth of renderer.rs draw_triangle: 1/z when
the magnitude of z exceeds 1e-6, else 0. -/
def vertex_recip (z : ℚ) : ℚ := if epsGuard < |z| then 1 / z else 0

/-- depths.dot(weights) of renderer.rs draw_triangle. -/
def recip_sum (t : TriangleM) (w : Vec3M) : ℚ :=
  (Vec3M.mk (vertex_recip t.a.position.z) (vertex_recip t.b.position.z)
    (vertex_recip t.c.position.z)).dot w

/-- The interpolated perspective-correct depth of renderer.rs draw_triangle:
the reciprocal of depths.dot(weights) when its magnitude exceeds 1e-6, else
the sentinel 0. -/
def interp_depth (t : TriangleM) (w : Vec3M) : ℚ :=
  if epsGuard < |recip_sum t w| then 1 / recip_sum t w else 0

/-- The buffer index of a pixel inside a slice. -/
def pix_idx (s : RenderSliceM) (x y : ℕ) : ℕ := (y - s.start) * s.width + x

/-- The body of the renderer.rs draw_triangle pixel loop at one pixel (x, y):
skip rows outside the slice, run the inside test, compute the guarded depth,
check the index and width bounds (x is a u32 so 0 <= x holds), apply the
depth test (new depth greater than stored skips), then shade and write both
buffers. -/
def draw_pixel (nml : Vec3M → Vec3M) (t : TriangleM) (mat : MaterialM)
    (s : RenderSliceM) (p : ℕ × ℕ) : RenderSliceM :=
  let x := p.1
  let y := p.2
  if y < s.start ∨ s.stop ≤ y then s
  else
    let r := point_in_triangle t.a.position.xy t.b.position.xy t.c.position.xy
      ⟨(x : ℚ), (y : ℚ)⟩
    if r.1 then
      let depth := interp_depth t r.2
      let idx := pix_idx s x y
      if idx < s.color_slice.length ∧ x < s.width then
        if s.depth_slice.getD idx 0 < depth then s
        else
          { s with color_slice := s.color_slice.set idx (shade_material nml mat t r.2).as_u32,
                   depth_slice := s.depth_slice.set idx depth }
      else s
    else s

/-- The pixel visit order of renderer.rs draw_triangle: y over the bounding
box row range (outer), x over the column range (inner). -/
def pixList (t : TriangleM) (screen : ℕ × ℕ) : List (ℕ × ℕ) :=
  let bounds := BoundsM.new t screen
  bounds.y_range.flatMap fun y => bounds.x_range.map fun x => (x, y)

/-- renderer.rs draw_triangle on a slice: fold the pixel body over the
bounding box of the triangle (the Bounds screen clamp extent is received
explicitly, see BoundsM.new). -/
def draw_triangle (nml : Vec3M → Vec3M) (screen : ℕ × ℕ) (s : RenderSliceM)
    (t : TriangleM) (mat : MaterialM) : RenderSliceM :=
  (pixList t screen).foldl (fun acc p => draw_pixel nml t mat acc p) s

/-- The cell of a slice at a buffer index: both buffer entries, absent when
out of range. -/
def slice_cell (s : RenderSliceM) (idx : ℕ) : Option ℕ × Option ℚ :=
  (s.color_slice[idx]?, s.depth_slice[idx]?)

/-- The effect of the draw_triangle pixel body on the cell it owns. -/
def draw_pixel_cell (nml : Vec3M → Vec3M) (t : TriangleM) (mat : MaterialM)
    (start stop width : ℕ) (x y : ℕ) (cell : Option ℕ × Option ℚ) : Option ℕ × Option ℚ :=
  if y < start ∨ stop ≤ y then cell
  else
    let r := point_in_triangle t.a.position.xy t.b.position.xy t.c.position.xy
      ⟨(x : ℚ), (y : ℚ)⟩
    if r.1 then
      let depth := interp_depth t r.2
      if cell.1.isSome ∧ x < width then
        if (cell.2.getD 0) < depth then cell
        else (some (shade_material nml mat t r.2).as_u32, some depth)
      else cell
    else cell

/-- Rust f32 ceil as a rational. -/
def qCeil (q : ℚ) : ℚ := (⌈q⌉ : ℚ)

/-- Rust i32::clamp. -/
def intClamp (v lo hi : ℤ) : ℤ := max lo (min v hi)

/-- The state of the Bresenham loop in draw_line: current point, error term,
and the color buffer being written. -/
structure LineStateM where
  x : ℤ
  y : ℤ
  err : ℤ
  buf : List ℕ

/-- The stepping part of one Bresenham iteration: e2 = 2 * err computed
once, then x advances by sx when e2 >= dy and y advances by sy when
e2 <= dx, each adding the other delta to err. -/
def bres_step (dx dy sx sy : ℤ) (st : LineStateM) : LineStateM :=
  let e2 := 2 * st.err
  let st1 := if dy ≤ e2 then { st with x := st.x + sx, err := st.err + dy } else st
  if e2 ≤ dx then { st1 with y := st1.y + sy, err := st1.err + dx } else st1

/-- The Bresenham loop of draw_line, fuelled: plot the current pixel, stop
when the endpoint is reached, otherwise step.  The plot action is a
parameter because renderer.rs (slice write) and lib.rs (target write) use
different bodies around the same loop.  Returns none when the fuel runs out
before the endpoint is reached. -/
def bres_loop (plot : ℤ → ℤ → List ℕ → List ℕ) (dx dy sx sy x1 y1 : ℤ) :
    ℕ → LineStateM → Option LineStateM
  | 0, _ => none
  | fuel + 1, st =>
    let st1 : LineStateM := { st with buf := plot st.x st.y st.buf }
    if st1.x = x1 ∧ st1.y = y1 then some st1
    else bres_loop plot dx dy sx sy x1 y1 fuel (bres_step dx dy sx sy st1)

/-- The pixel write of renderer.rs draw_line: inside the slice row range and
image width, set the color at the slice-relative index when it is in
bounds. -/
def slice_plot (start stop width color : ℕ) (x y : ℤ) (buf : List ℕ) : List ℕ :=
  if (start : ℤ) ≤ y ∧ y < (stop : ℤ) ∧ 0 ≤ x ∧ x < (width : ℤ) then
    let index := (y - (start : ℤ)).toNat * width + x.toNat
    if index < buf.length then buf.set index color else buf
  else buf

/-- renderer.rs draw_line on a slice: cast the two screen positions to i32,
set up the Bresenham deltas and run the loop; the fuel dx - dy + 1 is large
enough, as proven below. -/
def draw_line (s : RenderSliceM) (p1 p2 : VertexM) (color : ℕ) : RenderSliceM :=
  let q1 := p1.position.xy
  let q2 := p2.position.xy
  let x0 := castI32 q1.x
  let y0 := castI32 q1.y
  let x1 := castI32 q2.x
  let y1 := castI32 q2.y
  let dx := |x1 - x0|
  let dy := -|y1 - y0|
  let sx : ℤ := if x0 < x1 then 1 else -1
  let sy : ℤ := if y0 < y1 then 1 else -1
  match bres_loop (slice_plot s.start s.stop s.width color) dx dy sx sy x1 y1
      ((dx - dy).toNat + 1) ⟨x0, y0, dx + dy, s.color_slice⟩ with
  | some st => { s with color_slice := st.buf }
  | none => s

/-- renderer.rs draw_point on a slice: scan the square around the point and
fill pixels of the slice whose distance to the point is below size.  The f32
magnitude comparison sqrt(d) < size is embedded as its exact equivalent
0 <= size and d < size * size. -/
def draw_point (s : RenderSliceM) (point : VertexM) (size : ℚ) (color : ℕ) : RenderSliceM :=
  let xs := natRangeExcl (castU32 (point.position.x - qCeil size))
    (castU32 (point.position.x + qCeil size))
  let ys := natRangeExcl (castU32 (point.position.y - qCeil size))
    (castU32 (point.position.y + qCeil size))
  xs.foldl (fun s1 x =>
    ys.foldl (fun s2 y =>
      if s2.start ≤ y ∧ y < s2.stop ∧ x < s2.width then
        let index := (y - s2.start) * s2.width + x
        if index < s2.color_slice.length then
          let ddx := (x : ℚ) - point.position.x
          let ddy := (y : ℚ) - point.position.y
          if 0 ≤ size ∧ ddx * ddx + ddy * ddy < size * size then
            { s2 with color_slice := s2.color_slice.set index color }
          else s2
        else s2
      else s2) s1) s

/-- The vertex type of the lib.rs snapshot, whose positions are Point3 and
which only carries the attributes lib.rs draw_triangle consumes. -/
structure LVertexM where
  position : Vec3M
  color : Option ColorM
deriving DecidableEq

/-- Bounds::new over three explicit 2D points (the position projections the
lib.rs and renderer.rs triangles feed it). -/
def BoundsM.ofPoints (pa pb pc : Point2M) (screen : ℕ × ℕ) : BoundsM :=
  let mnx := min (min pa.x pb.x) pc.x
  let mny := min (min pa.y pb.y) pc.y
  let mxx := max (max pa.x pb.x) pc.x
  let mxy := max (max pa.y pb.y) pc.y
  ⟨max mnx 0, max mny 0, min mxx (screen.1 : ℚ), min mxy (screen.2 : ℚ)⟩

/-- The vertex stage of lib.rs draw_buffer (lines 397-417): multiply the
homogeneous position by the model-view-projection matrix, drop the vertex
when its clip z is below near or above far, apply the guarded perspective
divide, map to screen, and drop the vertex when its screen position leaves
[0, width] x [0, height]. -/
def lib_to_screen (mvp : Mat4M) (near far : ℚ) (W H : ℕ) (v : LVertexM) : Option LVertexM :=
  let clip := mvp.mulVec ⟨v.position.x, v.position.y, v.position.z, 1⟩
  if clip.z < near ∨ far < clip.z then none
  else
    let ndc := if clip.w ≠ 0 then clip.divScalar clip.w else clip
    let screen_x := (ndc.x + 1) * (1/2) * (W : ℚ)
    let screen_y := (1 - ndc.y) * (1/2) * (H : ℚ)
    let screen_z := ndc.z
    if (W : ℚ) < screen_x ∨ (H : ℚ) < screen_y ∨ screen_x < 0 ∨ screen_y < 0 then none
    else some { v with position := ⟨screen_x, screen_y, screen_z⟩ }

/-- lib.rs draw_triangle: scan the triangle bounding box (x outer, y inner),
inside-test each pixel, compute the guarded perspective-correct depth, apply
the depth test against the whole-target buffers at index y * width + x, and
shade by interpolating the vertex colors with a white fallback. -/
def lib_draw_triangle (tgt : RenderTargetM) (tri : LVertexM × LVertexM × LVertexM) :
    RenderTargetM :=
  let pa : Point2M := ⟨tri.1.position.x, tri.1.position.y⟩
  let pb : Point2M := ⟨tri.2.1.position.x, tri.2.1.position.y⟩
  let pc : Point2M := ⟨tri.2.2.position.x, tri.2.2.position.y⟩
  let bounds := BoundsM.ofPoints pa pb pc (tgt.width, tgt.height)
  bounds.x_range.foldl (fun t1 (x : ℕ) =>
    bounds.y_range.foldl (fun t2 (y : ℕ) =>
      let r := point_in_triangle pa pb pc ⟨(x : ℚ), (y : ℚ)⟩
      if r.1 then
        let srecip := (Vec3M.mk (vertex_recip tri.1.position.z)
          (vertex_recip tri.2.1.position.z) (vertex_recip tri.2.2.position.z)).dot r.2
        let depth := if epsGuard < |srecip| then 1 / srecip else 0
        let idx : ℕ := y * t2.width + x
        if idx < t2.width * t2.height then
          if t2.depth.getD idx 0 < depth then t2
          else
            let color := match tri.1.color, tri.2.1.color, tri.2.2.color with
              | some c1, some c2, some c3 => c1.interpolate c2 c3 r.2
              | _, _, _ => whiteColor
            { t2 with color := t2.color.set idx color.as_u32,
                      depth := t2.depth.set idx depth }
        else t2
      else t2) t1) tgt

/-- The pixel write of lib.rs draw_line: inside the image, set the color at
index y * width + x when it is in bounds. -/
def target_plot (width height color : ℕ) (x y : ℤ) (buf : List ℕ) : List ℕ :=
  if 0 ≤ x ∧ x < (width : ℤ) ∧ 0 ≤ y ∧ y < (height : ℤ) then
    let index := y.toNat * width + x.toNat
    if index < buf.length then buf.set index color else buf
  else buf

/-- lib.rs draw_line on the whole target: cast the endpoints to i32, clamp
them into the image, and run the Bresenham loop. -/
def lib_draw_line (tgt : RenderTargetM) (p1 p2 : Point2M) (color : ℕ) : RenderTargetM :=
  let w := tgt.width
  let h := tgt.height
  let x0 := intClamp (castI32 p1.x) 0 ((w : ℤ) - 1)
  let y0 := intClamp (castI32 p1.y) 0 ((h : ℤ) - 1)
  let x1 := intClamp (castI32 p2.x) 0 ((w : ℤ) - 1)
  let y1 := intClamp (castI32 p2.y) 0 ((h : ℤ) - 1)
  let dx := |x1 - x0|
  let dy := -|y1 - y0|
  let sx : ℤ := if x0 < x1 then 1 else -1
  let sy : ℤ := if y0 < y1 then 1 else -1
  match bres_loop (target_plot w h color) dx dy sx sy x1 y1
      ((dx - dy).toNat + 1) ⟨x0, y0, dx + dy, tgt.color⟩ with
  | some st => { tgt with color := st.buf }
  | none => tgt

/-- lib.rs draw_point on the whole target (same disk fill as the slice
variant, indexed by y * width + x and guarded only by the buffer length). -/
def lib_draw_point (tgt : RenderTargetM) (point : LVertexM) (size : ℚ) (color : ℕ) :
    RenderTargetM :=
  let xs := natRangeExcl (castU32 (point.position.x - qCeil size))
    (castU32 (point.position.x + qCeil size))
  let ys := natRangeExcl (castU32 (point.position.y - qCeil size))
    (castU32 (point.position.y + qCeil size))
  xs.foldl (fun t1 x =>
    ys.foldl (fun t2 y =>
      let idx := y * t2.width + x
      if idx < t2.width * t2.height then
        let ddx := (x : ℚ) - point.position.x
        let ddy := (y : ℚ) - point.position.y
        if 0 ≤ size ∧ ddx * ddx + ddy * ddy < size * size then
          { t2 with color := t2.color.set idx color }
        else t2
      else t2) t1) tgt

/-- lib.rs draw_buffer for one call (the caller passes three vertices):
run the vertex stage, group the surviving screen vertices in chunks of
exactly three, and draw each resulting triangle in the selected modes.
The matrix viewmodel stands for the product of the camera view matrix and
the entity transform, so that mvp = perspective * viewmodel as in the
source. -/
def lib_draw_buffer (persp viewmodel : Mat4M) (near far : ℚ) (tgt : RenderTargetM)
    (vertices : List LVertexM) (wireframe points shaded : Bool) : RenderTargetM :=
  let mvp := persp.mul viewmodel
  let screen_vertices := vertices.filterMap (lib_to_screen mvp near far tgt.width tgt.height)
  (chunksExact3 screen_vertices).foldl (fun t0 tri =>
    let t1 := if shaded then lib_draw_triangle t0 tri else t0
    let t2 := if wireframe then
        let c := (ColorM.mk 1 1 1 1).as_u32
        let pa : Point2M := ⟨tri.1.position.x, tri.1.position.y⟩
        let pb : Point2M := ⟨tri.2.1.position.x, tri.2.1.position.y⟩
        let pc : Point2M := ⟨tri.2.2.position.x, tri.2.2.position.y⟩
        lib_draw_line (lib_draw_line (lib_draw_line t1 pa pb c) pb pc c) pc pa c
      else t1
    if points then
      let c := (ColorM.mk (1/2) (1/2) (1/2) 1).as_u32
      lib_draw_point (lib_draw_point (lib_draw_point t2 tri.1 2 c) tri.2.1 2 c) tri.2.2 2 c
    else t2) tgt

/-- The vertex stage of renderer.rs draw_buffer (lines 275-291): compose the
model-view-projection matrix, transform each chunk of up to three vertices
to screen space, keep the chunk only when every screen position is below the
target extent, and update the normals by the entity rotation rotv (with f32
normalization nml). -/
def screen_vertex_stage (persp view modelH scaleH : Mat4M) (rotv nml : Vec3M → Vec3M)
    (W H : ℕ) (verts : List VertexM) : List VertexM :=
  let mvp := ((persp.mul view).mul modelH).mul scaleH
  (chunks3 verts).flatMap fun chunk =>
    let vs := chunk.map fun v => ((v.world_to_clip mvp).clip_to_ndc).ndc_to_screen (W, H)
    if vs.all fun v => decide (v.position.x < (W : ℚ)) && decide (v.position.y < (H : ℚ)) then
      vs.map fun v => v.update_normal rotv nml
    else []

/-- The view-space depth of a world position under a view(-model) matrix:
the camera looks down the negative view z axis, so depth is the negated
view-space z coordinate. -/
def view_depth (viewmodel : Mat4M) (p : Vec3M) : ℚ :=
  -((viewmodel.mulVec ⟨p.x, p.y, p.z, 1⟩).z)

/-- A quaternion of f32, as nalgebra UnitQuaternion stores one. -/
structure QuatM where
  w : ℚ
  x : ℚ
  y : ℚ
  z : ℚ
deriving DecidableEq

/-- The Hamilton product. -/
def QuatM.mul (p q : QuatM) : QuatM :=
  ⟨p.w * q.w - p.x * q.x - p.y * q.y - p.z * q.z,
   p.w * q.x + p.x * q.w + p.y * q.z - p.z * q.y,
   p.w * q.y - p.x * q.z + p.y * q.w + p.z * q.x,
   p.w * q.z + p.x * q.y - p.y * q.x + p.z * q.w⟩

def QuatM.conj (q : QuatM) : QuatM := ⟨q.w, -q.x, -q.y, -q.z⟩

/-- UnitQuaternion::from_axis_angle for a unit axis: the scalars c and s
stand for the cosine and sine of half the rotation angle (which are
irrational for f32 angles and are therefore parameters of the model). -/
def QuatM.from_axis_angle (axis : Vec3M) (c s : ℚ) : QuatM :=
  ⟨c, s * axis.x, s * axis.y, s * axis.z⟩

/-- The rotation action of a unit quaternion on a vector: q v q conjugate. -/
def QuatM.rotate (q : QuatM) (v : Vec3M) : Vec3M :=
  let r := (q.mul ⟨0, v.x, v.y, v.z⟩).mul q.conj
  ⟨r.x, r.y, r.z⟩

/-- Camera::look restricted to the state it reads and writes (the
orientation): yaw_rot is the axis-angle rotation about (0,1,0) by
yaw = -delta_x * sensitivity and pitch_rot about (1,0,0) by
pitch = -delta_y * sensitivity; (yc, ys) and (pc, ps) stand for the cosine
and sine of half those angles (Unit::new_normalize leaves the two unit axes
unchanged).  The new orientation is orientation * pitch_rot * yaw_rot. -/
def Camera.look (orientation : QuatM) (yc ys pc ps : ℚ) : QuatM :=
  let yaw_rot := QuatM.from_axis_angle ⟨0, 1, 0⟩ yc ys
  let pitch_rot := QuatM.from_axis_angle ⟨1, 0, 0⟩ pc ps
  (orientation.mul pitch_rot).mul yaw_rot

/-! Helper lemmas. -/

theorem signed_area_sum (a b c p : Point2M) :
    signed_area a b p + signed_area b c p + signed_area c a p = signed_area a b c := by
  simp only [signed_area, Point2M.sub, Point2M.dot, perpendicular_vector]
  ring

theorem signed_area_last_eq_fst (x y : Point2M) : signed_area x y x = 0 := by
  simp only [signed_area, Point2M.sub, Point2M.dot, perpendicular_vector]
  ring

theorem signed_area_last_eq_snd (x y : Point2M) : signed_area x y y = 0 := by
  simp only [signed_area, Point2M.sub, Point2M.dot, perpendicular_vector]
  ring

theorem clampQ01_bounds (u : ℚ) : 0 ≤ clampQ u 0 1 ∧ clampQ u 0 1 ≤ 1 := by
  unfold clampQ
  split_ifs <;> constructor <;> linarith

theorem roundF32_bounds {q : ℚ} {n : ℕ} (h0 : 0 ≤ q) (hn : q ≤ (n : ℚ)) :
    0 ≤ roundF32 q ∧ roundF32 q ≤ (n : ℤ) := by
  unfold roundF32
  rw [if_pos h0]
  constructor
  · exact Int.le_floor.mpr (by push_cast; linarith)
  · have h1 : ⌊(q + 1/2 : ℚ)⌋ < (n : ℤ) + 1 := Int.floor_lt.mpr (by push_cast; linarith)
    omega

theorem sample_coord_lt {n : ℕ} (hn : 0 < n) {c : ℚ} (hc0 : 0 ≤ c) (hc1 : c ≤ 1) :
    intToU32 (roundF32 (c * ((n : ℚ) - 1))) < n := by
  have h1 : (1 : ℚ) ≤ (n : ℚ) := by exact_mod_cast hn
  have hq0 : 0 ≤ c * ((n : ℚ) - 1) := mul_nonneg hc0 (by linarith)
  have hq1 : c * ((n : ℚ) - 1) ≤ ((n - 1 : ℕ) : ℚ) := by
    push_cast [hn]
    nlinarith
  obtain ⟨hr0, hr1⟩ := roundF32_bounds hq0 hq1
  unfold intToU32
  have : (roundF32 (c * ((n : ℚ) - 1))).toNat ≤ n - 1 := by omega
  omega

/-! Claim theorems and witnesses. -/

/-- C8 (confirmed): Vertex::clip_to_ndc divides the homogeneous position by
its w component (yielding w = 1) exactly when w is nonzero, and keeps the
vertex unchanged when w is exactly zero; the operation is a total function,
so it never fails. -/
theorem claim_C08 (v : VertexM) :
    (v.position.w ≠ 0 → (VertexM.clip_to_ndc v).position =
      ⟨v.position.x / v.position.w, v.position.y / v.position.w,
       v.position.z / v.position.w, 1⟩) ∧
    (v.position.w = 0 → VertexM.clip_to_ndc v = v) := by
  constructor
  · intro h
    simp only [VertexM.clip_to_ndc, Vec4M.divScalar, if_pos h]
    exact congrArg _ (div_self h)
  · intro h
    simp [VertexM.clip_to_ndc, h]

/-- Witness for C8 at a concrete vertex with w = 2 and one with w = 0. -/
theorem claim_C08_witness :
    ((⟨⟨2, 4, 6, 2⟩, none, none, none⟩ : VertexM).position.w ≠ 0) ∧
    (VertexM.clip_to_ndc ⟨⟨2, 4, 6, 2⟩, none, none, none⟩).position = ⟨1, 2, 3, 1⟩ := by
  refine ⟨by norm_num, ?_⟩
  have h := (claim_C08 ⟨⟨2, 4, 6, 2⟩, none, none, none⟩).1 (by norm_num)
  rw [h]
  norm_num

/-- C5 (confirmed): in the guarded depth computation of draw_triangle, a
vertex with |z| at most 1e-6 contributes reciprocal 0, a vertex with |z|
above 1e-6 contributes an exact reciprocal of z, the interpolated depth is
the sentinel 0 when the magnitude of the reciprocal dot product is at most
1e-6, and otherwise is an exact reciprocal of that dot product; every
division performed therefore has a divisor of magnitude above 1e-6, so no
division by (near) zero and no NaN or infinity arises from these guards. -/
theorem claim_C05 (t : TriangleM) (w : Vec3M) (z : ℚ) :
    (|z| ≤ epsGuard → vertex_recip z = 0) ∧
    (epsGuard < |z| → vertex_recip z * z = 1) ∧
    (|recip_sum t w| ≤ epsGuard → interp_depth t w = 0) ∧
    (epsGuard < |recip_sum t w| → interp_depth t w * recip_sum t w = 1) := by
  refine ⟨fun h => ?_, fun h => ?_, fun h => ?_, fun h => ?_⟩
  · simp [vertex_recip, not_lt.mpr h]
  · have hz : z ≠ 0 := by
      intro hz0
      rw [hz0] at h
      norm_num [epsGuard] at h
    simp [vertex_recip, h, one_div, inv_mul_cancel₀ hz]
  · simp [interp_depth, not_lt.mpr h]
  · have hs : recip_sum t w ≠ 0 := by
      intro hs0
      rw [hs0] at h
      norm_num [epsGuard] at h
    simp [interp_depth, h, one_div, inv_mul_cancel₀ hs]

/-- Witness for C5 at a triangle with all vertex z equal 2 and weights
(1, 0, 0). -/
theorem claim_C05_witness :
    (epsGuard < |(2 : ℚ)| ∧ vertex_recip 2 * 2 = 1) ∧
    (epsGuard <
        |recip_sum ⟨⟨⟨0, 0, 2, 1⟩, none, none, none⟩, ⟨⟨1, 0, 2, 1⟩, none, none, none⟩,
          ⟨⟨0, 1, 2, 1⟩, none, none, none⟩⟩ ⟨1, 0, 0⟩| ∧
      interp_depth ⟨⟨⟨0, 0, 2, 1⟩, none, none, none⟩, ⟨⟨1, 0, 2, 1⟩, none, none, none⟩,
          ⟨⟨0, 1, 2, 1⟩, none, none, none⟩⟩ ⟨1, 0, 0⟩ *
        recip_sum ⟨⟨⟨0, 0, 2, 1⟩, none, none, none⟩, ⟨⟨1, 0, 2, 1⟩, none, none, none⟩,
          ⟨⟨0, 1, 2, 1⟩, none, none, none⟩⟩ ⟨1, 0, 0⟩ = 1) := by
  have h := claim_C05
    ⟨⟨⟨0, 0, 2, 1⟩, none, none, none⟩, ⟨⟨1, 0, 2, 1⟩, none, none, none⟩,
      ⟨⟨0, 1, 2, 1⟩, none, none, none⟩⟩ ⟨1, 0, 0⟩ 2
  have hr : recip_sum ⟨⟨⟨0, 0, 2, 1⟩, none, none, none⟩, ⟨⟨1, 0, 2, 1⟩, none, none, none⟩,
      ⟨⟨0, 1, 2, 1⟩, none, none, none⟩⟩ ⟨1, 0, 0⟩ = 1/2 := by
    norm_num [recip_sum, vertex_recip, Vec3M.dot, epsGuard]
  have hs : epsGuard <
      |recip_sum ⟨⟨⟨0, 0, 2, 1⟩, none, none, none⟩, ⟨⟨1, 0, 2, 1⟩, none, none, none⟩,
        ⟨⟨0, 1, 2, 1⟩, none, none, none⟩⟩ ⟨1, 0, 0⟩| := by
    rw [hr, abs_of_pos (show (0 : ℚ) < 1/2 by norm_num)]
    norm_num [epsGuard]
  exact ⟨⟨by norm_num [epsGuard], h.2.1 (by norm_num [epsGuard])⟩, hs, h.2.2.2 hs⟩

/-- C4 (confirmed): for a triangle of nonzero total signed area,
triangle_barycentric returns the unit basis weights at the three vertices,
the weights sum to 1 at every query point, and at a point strictly inside a
triangle of positive winding (all three edge signed areas positive, the
counter-clockwise screen orientation accepted by the inside test) every
weight lies in [0, 1]. -/
theorem claim_C04 (t : TriangleM)
    (h : signed_area t.a.position.xy t.b.position.xy t.c.position.xy ≠ 0) :
    (triangle_barycentric t t.a.position.xy = ⟨1, 0, 0⟩ ∧
     triangle_barycentric t t.b.position.xy = ⟨0, 1, 0⟩ ∧
     triangle_barycentric t t.c.position.xy = ⟨0, 0, 1⟩) ∧
    (∀ p : Point2M, (triangle_barycentric t p).x + (triangle_barycentric t p).y +
      (triangle_barycentric t p).z = 1) ∧
    (∀ p : Point2M,
      0 < signed_area t.a.position.xy t.b.position.xy p →
      0 < signed_area t.b.position.xy t.c.position.xy p →
      0 < signed_area t.c.position.xy t.a.position.xy p →
      ((triangle_barycentric t p).x ∈ Set.Icc (0 : ℚ) 1 ∧
       (triangle_barycentric t p).y ∈ Set.Icc (0 : ℚ) 1 ∧
       (triangle_barycentric t p).z ∈ Set.Icc (0 : ℚ) 1)) := by
  set a := t.a.position.xy with ha
  set b := t.b.position.xy with hb
  set c := t.c.position.xy with hc
  refine ⟨⟨?_, ?_, ?_⟩, ?_, ?_⟩
  · have e1 : signed_area a b a = 0 := signed_area_last_eq_fst a b
    have e2 : signed_area c a a = 0 := signed_area_last_eq_snd c a
    have e3 : signed_area b c a = signed_area a b c := by
      have hsum := signed_area_sum a b c a
      rw [e1, e2] at hsum
      linarith
    simp only [triangle_barycentric, ← ha, ← hb, ← hc, e1, e2, e3, Vec3M.mk.injEq]
    refine ⟨?_, ?_, ?_⟩ <;> field_simp
  · have e1 : signed_area a b b = 0 := signed_area_last_eq_snd a b
    have e2 : signed_area b c b = 0 := signed_area_last_eq_fst b c
    have e3 : signed_area c a b = signed_area a b c := by
      have hsum := signed_area_sum a b c b
      rw [e1, e2] at hsum
      linarith
    simp only [triangle_barycentric, ← ha, ← hb, ← hc, e1, e2, e3, Vec3M.mk.injEq]
    refine ⟨?_, ?_, ?_⟩ <;> field_simp
  · have e1 : signed_area b c c = 0 := signed_area_last_eq_snd b c
    have e2 : signed_area c a c = 0 := signed_area_last_eq_fst c a
    have e3 : signed_area a b c = signed_area a b c := rfl
    simp only [triangle_barycentric, ← ha, ← hb, ← hc, e1, e2, Vec3M.mk.injEq]
    refine ⟨?_, ?_, ?_⟩ <;> field_simp
  · intro p
    have hsum := signed_area_sum a b c p
    have hne : signed_area a b p + signed_area b c p + signed_area c a p ≠ 0 := by
      rw [hsum]
      exact h
    simp only [triangle_barycentric, ← ha, ← hb, ← hc]
    field_simp
    ring
  · intro p h1 h2 h3
    have hpos : 0 < signed_area a b p + signed_area b c p + signed_area c a p := by linarith
    have hne : signed_area a b p + signed_area b c p + signed_area c a p ≠ 0 := ne_of_gt hpos
    simp only [triangle_barycentric, ← ha, ← hb, ← hc, Set.mem_Icc]
    refine ⟨⟨?_, ?_⟩, ⟨?_, ?_⟩, ⟨?_, ?_⟩⟩ <;>
      rw [mul_one_div]
    · positivity
    · rw [div_le_one hpos]
      linarith
    · positivity
    · rw [div_le_one hpos]
      linarith
    · positivity
    · rw [div_le_one hpos]
      linarith

/-- Witness for C4 at the screen triangle (0,0), (0,1), (1,0), whose total
signed area is 1/2. -/
theorem claim_C04_witness :
    (signed_area
        (⟨⟨⟨0, 0, 0, 1⟩, none, none, none⟩, ⟨⟨0, 1, 0, 1⟩, none, none, none⟩,
          ⟨⟨1, 0, 0, 1⟩, none, none, none⟩⟩ : TriangleM).a.position.xy
        (⟨⟨⟨0, 0, 0, 1⟩, none, none, none⟩, ⟨⟨0, 1, 0, 1⟩, none, none, none⟩,
          ⟨⟨1, 0, 0, 1⟩, none, none, none⟩⟩ : TriangleM).b.position.xy
        (⟨⟨⟨0, 0, 0, 1⟩, none, none, none⟩, ⟨⟨0, 1, 0, 1⟩, none, none, none⟩,
          ⟨⟨1, 0, 0, 1⟩, none, none, none⟩⟩ : TriangleM).c.position.xy ≠ 0) ∧
    triangle_barycentric
        (⟨⟨⟨0, 0, 0, 1⟩, none, none, none⟩, ⟨⟨0, 1, 0, 1⟩, none, none, none⟩,
          ⟨⟨1, 0, 0, 1⟩, none, none, none⟩⟩ : TriangleM)
        (⟨⟨⟨0, 0, 0, 1⟩, none, none, none⟩, ⟨⟨0, 1, 0, 1⟩, none, none, none⟩,
          ⟨⟨1, 0, 0, 1⟩, none, none, none⟩⟩ : TriangleM).a.position.xy = ⟨1, 0, 0⟩ := by
  have hc : signed_area
      (⟨⟨⟨0, 0, 0, 1⟩, none, none, none⟩, ⟨⟨0, 1, 0, 1⟩, none, none, none⟩,
        ⟨⟨1, 0, 0, 1⟩, none, none, none⟩⟩ : TriangleM).a.position.xy
      (⟨⟨⟨0, 0, 0, 1⟩, none, none, none⟩, ⟨⟨0, 1, 0, 1⟩, none, none, none⟩,
        ⟨⟨1, 0, 0, 1⟩, none, none, none⟩⟩ : TriangleM).b.position.xy
      (⟨⟨⟨0, 0, 0, 1⟩, none, none, none⟩, ⟨⟨0, 1, 0, 1⟩, none, none, none⟩,
        ⟨⟨1, 0, 0, 1⟩, none, none, none⟩⟩ : TriangleM).c.position.xy ≠ 0 := by
    norm_num [signed_area, Point2M.sub, Point2M.dot, perpendicular_vector, Vec4M.xy]
  exact ⟨hc, (claim_C04 _ hc).1.1⟩

/-- C7 (confirmed): Texture::sample clamps each UV component into [0,1],
scales by (dimension - 1), rounds and flips V, so the computed coordinates
lie inside the width times height image whenever the extent is nonzero and
sample then returns some color; sample returns none exactly when the image
has zero extent, and in that case the draw_triangle caller (the Textured
branch of the material match) substitutes opaque white. -/
theorem claim_C07 (t : TextureM) (uv : Point2M) :
    (0 < t.width → 0 < t.height →
      ∃ x y, x < t.width ∧ y < t.height ∧
        t.sample uv = some (ColorM.from_rgba (t.pix x y).1 (t.pix x y).2.1
          (t.pix x y).2.2.1 (t.pix x y).2.2.2)) ∧
    (t.sample uv = none ↔ (t.width = 0 ∨ t.height = 0)) ∧
    (∀ (nml : Vec3M → Vec3M) (tri : TriangleM) (w : Vec3M),
      (t.width = 0 ∨ t.height = 0) →
      shade_material nml (MaterialM.Textured t) tri w = whiteColor) := by
  have main : 0 < t.width → 0 < t.height →
      ∃ x y, x < t.width ∧ y < t.height ∧
        t.sample uv = some (ColorM.from_rgba (t.pix x y).1 (t.pix x y).2.1
          (t.pix x y).2.2.1 (t.pix x y).2.2.2) := by
    intro hw hh
    have hcx := clampQ01_bounds uv.x
    have hcy := clampQ01_bounds uv.y
    have hx : intToU32 (roundF32 (clampQ uv.x 0 1 * ((t.width : ℚ) - 1))) < t.width :=
      sample_coord_lt hw hcx.1 hcx.2
    have hy : intToU32 (roundF32 ((1 - clampQ uv.y 0 1) * ((t.height : ℚ) - 1))) <
        t.height := sample_coord_lt hh (by linarith [hcy.2]) (by linarith [hcy.1])
    refine ⟨_, _, hx, hy, ?_⟩
    simp only [TextureM.sample]
    rw [if_pos ⟨hx, hy⟩]
  have noneIff : t.sample uv = none ↔ (t.width = 0 ∨ t.height = 0) := by
    constructor
    · intro hnone
      by_contra hcon
      push_neg at hcon
      obtain ⟨x, y, hx, hy, hsome⟩ :=
        main (Nat.pos_of_ne_zero hcon.1) (Nat.pos_of_ne_zero hcon.2)
      rw [hnone] at hsome
      exact Option.noConfusion hsome
    · intro hdeg
      simp only [TextureM.sample]
      rw [if_neg]
      rintro ⟨hx, hy⟩
      rcases hdeg with h0 | h0 <;> omega
  refine ⟨main, noneIff, ?_⟩
  intro nml tri w hdeg
  cases huv : calculate_uvs tri w with
  | none => simp [shade_material, huv]
  | some uv2 =>
      have hnone : t.sample uv2 = none := by
        simp only [TextureM.sample]
        rw [if_neg]
        rintro ⟨hx, hy⟩
        rcases hdeg with h0 | h0 <;> omega
      simp [shade_material, huv, hnone]

/-- Witness for C7 at a 2 by 2 texture and the out-of-range UV (3, -1). -/
theorem claim_C07_witness :
    (0 < (2 : ℕ) ∧ 0 < (2 : ℕ)) ∧
    (∃ x y, x < (TextureM.mk 2 2 fun _ _ => (8, 16, 32, 255)).width ∧
      y < (TextureM.mk 2 2 fun _ _ => (8, 16, 32, 255)).height ∧
      (TextureM.mk 2 2 fun _ _ => (8, 16, 32, 255)).sample ⟨3, -1⟩ =
        some (ColorM.from_rgba 8 16 32 255)) := by
  refine ⟨⟨by norm_num, by norm_num⟩, ?_⟩
  obtain ⟨x, y, hx, hy, hs⟩ :=
    (claim_C07 (TextureM.mk 2 2 fun _ _ => (8, 16, 32, 255)) ⟨3, -1⟩).1
      (by norm_num) (by norm_num)
  exact ⟨x, y, hx, hy, hs⟩

theorem foldl_preserves {α β γ : Type} (f : β → α → β) (meas : β → γ)
    (h : ∀ b a, meas (f b a) = meas b) : ∀ (l : List α) (b : β), meas (l.foldl f b) = meas b := by
  intro l
  induction l with
  | nil => intro b; rfl
  | cons a l ih => intro b; rw [List.foldl_cons, ih, h]

theorem draw_pixel_geom (nml : Vec3M → Vec3M) (t : TriangleM) (mat : MaterialM)
    (s : RenderSliceM) (p : ℕ × ℕ) :
    (draw_pixel nml t mat s p).start = s.start ∧
    (draw_pixel nml t mat s p).stop = s.stop ∧
    (draw_pixel nml t mat s p).width = s.width ∧
    (draw_pixel nml t mat s p).color_slice.length = s.color_slice.length ∧
    (draw_pixel nml t mat s p).depth_slice.length = s.depth_slice.length := by
  unfold draw_pixel
  dsimp only
  split_ifs <;> simp

theorem draw_triangle_geom (nml : Vec3M → Vec3M) (screen : ℕ × ℕ) (s : RenderSliceM)
    (t : TriangleM) (mat : MaterialM) :
    (draw_triangle nml screen s t mat).start = s.start ∧
    (draw_triangle nml screen s t mat).stop = s.stop ∧
    (draw_triangle nml screen s t mat).width = s.width ∧
    (draw_triangle nml screen s t mat).color_slice.length = s.color_slice.length ∧
    (draw_triangle nml screen s t mat).depth_slice.length = s.depth_slice.length := by
  unfold draw_triangle
  refine ⟨?_, ?_, ?_, ?_, ?_⟩
  · exact foldl_preserves _ (fun s => s.start) (fun b a => (draw_pixel_geom nml t mat b a).1) _ s
  · exact foldl_preserves _ (fun s => s.stop) (fun b a => (draw_pixel_geom nml t mat b a).2.1) _ s
  · exact foldl_preserves _ (fun s => s.width) (fun b a => (draw_pixel_geom nml t mat b a).2.2.1) _ s
  · exact foldl_preserves _ (fun s => s.color_slice.length)
      (fun b a => (draw_pixel_geom nml t mat b a).2.2.2.1) _ s
  · exact foldl_preserves _ (fun s => s.depth_slice.length)
      (fun b a => (draw_pixel_geom nml t mat b a).2.2.2.2) _ s

theorem bres_step_buf (dx dy sx sy : ℤ) (st : LineStateM) :
    (bres_step dx dy sx sy st).buf = st.buf := by
  unfold bres_step
  dsimp only
  split_ifs <;> rfl

theorem bres_loop_some_buf_length (plot : ℤ → ℤ → List ℕ → List ℕ)
    (hplot : ∀ x y b, (plot x y b).length = b.length) (dx dy sx sy x1 y1 : ℤ) :
    ∀ (fuel : ℕ) (st r : LineStateM),
      bres_loop plot dx dy sx sy x1 y1 fuel st = some r →
      r.buf.length = st.buf.length := by
  intro fuel
  induction fuel with
  | zero =>
      intro st r h
      exact absurd h (by simp [bres_loop])
  | succ n ih =>
      intro st r h
      unfold bres_loop at h
      dsimp only at h
      split at h
      · cases h
        exact hplot _ _ _
      · have := ih _ _ h
        rw [this, bres_step_buf]
        exact hplot _ _ _

theorem slice_plot_length (start stop width color : ℕ) (x y : ℤ) (b : List ℕ) :
    (slice_plot start stop width color x y b).length = b.length := by
  unfold slice_plot
  dsimp only
  split_ifs <;> simp

theorem target_plot_length (width height color : ℕ) (x y : ℤ) (b : List ℕ) :
    (target_plot width height color x y b).length = b.length := by
  unfold target_plot
  dsimp only
  split_ifs <;> simp

theorem draw_line_geom (s : RenderSliceM) (p1 p2 : VertexM) (color : ℕ) :
    (draw_line s p1 p2 color).start = s.start ∧
    (draw_line s p1 p2 color).stop = s.stop ∧
    (draw_line s p1 p2 color).width = s.width ∧
    (draw_line s p1 p2 color).color_slice.length = s.color_slice.length ∧
    (draw_line s p1 p2 color).depth_slice = s.depth_slice := by
  unfold draw_line
  dsimp only
  split
  case _ st heq =>
    have hb := bres_loop_some_buf_length _ (slice_plot_length s.start s.stop s.width color)
      _ _ _ _ _ _ _ _ _ heq
    simp_all
  case _ heq => simp

theorem draw_point_geom (s : RenderSliceM) (point : VertexM) (size : ℚ) (color : ℕ) :
    (draw_point s point size color).start = s.start ∧
    (draw_point s point size color).stop = s.stop ∧
    (draw_point s point size color).width = s.width ∧
    (draw_point s point size color).color_slice.length = s.color_slice.length ∧
    (draw_point s point size color).depth_slice = s.depth_slice := by
  unfold draw_point
  have inner : ∀ (x : ℕ) (meas : RenderSliceM → ℕ ⊕ List ℚ),
      True := fun _ _ => trivial
  refine ⟨?_, ?_, ?_, ?_, ?_⟩
  · refine foldl_preserves _ (fun s => s.start) (fun b x => ?_) _ s
    refine foldl_preserves _ (fun s => s.start) (fun b2 y => ?_) _ b
    dsimp only
    split_ifs <;> simp
  · refine foldl_preserves _ (fun s => s.stop) (fun b x => ?_) _ s
    refine foldl_preserves _ (fun s => s.stop) (fun b2 y => ?_) _ b
    dsimp only
    split_ifs <;> simp
  · refine foldl_preserves _ (fun s => s.width) (fun b x => ?_) _ s
    refine foldl_preserves _ (fun s => s.width) (fun b2 y => ?_) _ b
    dsimp only
    split_ifs <;> simp
  · refine foldl_preserves _ (fun s => s.color_slice.length) (fun b x => ?_) _ s
    refine foldl_preserves _ (fun s => s.color_slice.length) (fun b2 y => ?_) _ b
    dsimp only
    split_ifs <;> simp
  · refine foldl_preserves _ (fun s => s.depth_slice) (fun b x => ?_) _ s
    refine foldl_preserves _ (fun s => s.depth_slice) (fun b2 y => ?_) _ b
    dsimp only
    split_ifs <;> simp

/-- C6 (confirmed): RenderTarget::new establishes color and depth buffers of
equal length width * height; clear keeps both buffer lengths (so it
re-establishes the invariant) and, regardless of prior contents, sets every
depth entry to the f32 MAX far sentinel and every color entry to the
configured clear color; and the drawing operations on slices
(draw_triangle, draw_line, draw_point) preserve the lengths of both
sub-buffers, so the whole-target invariant is preserved by every frame
operation. -/
theorem claim_C06 :
    (∀ W H : ℕ, (RenderTargetM.new W H).color.length = W * H ∧
      (RenderTargetM.new W H).depth.length = W * H) ∧
    (∀ t : RenderTargetM, t.color.length = t.width * t.height →
      t.depth.length = t.width * t.height →
      t.clear.color.length = t.width * t.height ∧
      t.clear.depth.length = t.width * t.height) ∧
    (∀ t : RenderTargetM, (∀ d ∈ t.clear.depth, d = f32MAX) ∧
      (∀ c ∈ t.clear.color, c = t.clear_color)) ∧
    (∀ (nml : Vec3M → Vec3M) (screen : ℕ × ℕ) (s : RenderSliceM) (tri : TriangleM)
      (mat : MaterialM),
      (draw_triangle nml screen s tri mat).color_slice.length = s.color_slice.length ∧
      (draw_triangle nml screen s tri mat).depth_slice.length = s.depth_slice.length) ∧
    (∀ (s : RenderSliceM) (p1 p2 : VertexM) (color : ℕ),
      (draw_line s p1 p2 color).color_slice.length = s.color_slice.length ∧
      (draw_line s p1 p2 color).depth_slice = s.depth_slice) ∧
    (∀ (s : RenderSliceM) (point : VertexM) (size : ℚ) (color : ℕ),
      (draw_point s point size color).color_slice.length = s.color_slice.length ∧
      (draw_point s point size color).depth_slice = s.depth_slice) := by
  refine ⟨?_, ?_, ?_, ?_, ?_, ?_⟩
  · intro W H
    simp [RenderTargetM.new]
  · intro t hc hd
    simp [RenderTargetM.clear, hc, hd]
  · intro t
    constructor
    · intro d hd
      exact List.eq_of_mem_replicate hd
    · intro c hc
      exact List.eq_of_mem_replicate hc
  · intro nml screen s tri mat
    exact ⟨(draw_triangle_geom nml screen s tri mat).2.2.2.1,
      (draw_triangle_geom nml screen s tri mat).2.2.2.2⟩
  · intro s p1 p2 color
    exact ⟨(draw_line_geom s p1 p2 color).2.2.2.1, (draw_line_geom s p1 p2 color).2.2.2.2⟩
  · intro s point size color
    exact ⟨(draw_point_geom s point size color).2.2.2.1,
      (draw_point_geom s point size color).2.2.2.2⟩

/-- Witness for C6: a 2 by 3 target, cleared after drawing would keep the
invariant; here clear applied to the fresh target. -/
theorem claim_C06_witness :
    ((RenderTargetM.new 2 3).color.length = (RenderTargetM.new 2 3).width *
        (RenderTargetM.new 2 3).height ∧
      (RenderTargetM.new 2 3).depth.length = (RenderTargetM.new 2 3).width *
        (RenderTargetM.new 2 3).height) ∧
    ((RenderTargetM.new 2 3).clear.color.length = (RenderTargetM.new 2 3).width *
        (RenderTargetM.new 2 3).height ∧
      (RenderTargetM.new 2 3).clear.depth.length = (RenderTargetM.new 2 3).width *
        (RenderTargetM.new 2 3).height) := by
  have h1 : (RenderTargetM.new 2 3).color.length = (RenderTargetM.new 2 3).width *
      (RenderTargetM.new 2 3).height := by simp [RenderTargetM.new]
  have h2 : (RenderTargetM.new 2 3).depth.length = (RenderTargetM.new 2 3).width *
      (RenderTargetM.new 2 3).height := by simp [RenderTargetM.new]
  exact ⟨⟨h1, h2⟩, claim_C06.2.1 (RenderTargetM.new 2 3) h1 h2⟩

theorem create_slices_go_zero (width hgt r i : ℕ) (c : List ℕ) (d : List ℚ) :
    create_slices_go width hgt r 0 i c d = [] := rfl

theorem create_slices_go_succ (width hgt r fuel i : ℕ) (c : List ℕ) (d : List ℚ) :
    create_slices_go width hgt r (fuel + 1) i c d =
      if hgt ≤ i * r then []
      else
        { color_slice := c.take (min (i * r + r) hgt * width - i * r * width),
          depth_slice := d.take (min (i * r + r) hgt * width - i * r * width),
          start := i * r, stop := min (i * r + r) hgt, width := width } ::
          create_slices_go width hgt r fuel (i + 1)
            (c.drop (min (i * r + r) hgt * width - i * r * width))
            (d.drop (min (i * r + r) hgt * width - i * r * width)) := rfl

theorem create_slices_go_nil (width hgt r fuel i : ℕ) (c : List ℕ) (d : List ℚ)
    (h : hgt ≤ i * r) : create_slices_go width hgt r fuel i c d = [] := by
  cases fuel with
  | zero => rfl
  | succ n => rw [create_slices_go_succ, if_pos h]

theorem create_slices_go_tiling (width hgt r : ℕ) (hr : 1 ≤ r) :
    ∀ (fuel i : ℕ) (c : List ℕ) (d : List ℚ),
      i * r ≤ hgt → hgt ≤ i * r + fuel * r →
      IsTiling (i * r) (slice_ranges (create_slices_go width hgt r fuel i c d)) hgt := by
  intro fuel
  induction fuel with
  | zero =>
      intro i c d hle hge
      have heq : i * r = hgt := le_antisymm hle (by simpa using hge)
      rw [create_slices_go_zero]
      simpa [slice_ranges, IsTiling] using heq
  | succ n ih =>
      intro i c d hle hge
      by_cases hstart : hgt ≤ i * r
      · have heq : i * r = hgt := le_antisymm hle hstart
        rw [create_slices_go_nil width hgt r _ i c d hstart]
        simpa [slice_ranges, IsTiling] using heq
      · push_neg at hstart
        rw [create_slices_go_succ, if_neg (not_le.mpr hstart)]
        simp only [slice_ranges, List.map_cons]
        refine ⟨rfl, lt_min (by omega) hstart, ?_⟩
        by_cases hnext : (i + 1) * r ≤ hgt
        · have hmin : min (i * r + r) hgt = (i + 1) * r := by
            rw [min_eq_left]
            · ring
            · calc i * r + r = (i + 1) * r := by ring
                _ ≤ hgt := hnext
          rw [hmin]
          exact ih (i + 1) _ _ hnext (by
            have : i * r + (n + 1) * r = (i + 1) * r + n * r := by ring
            omega)
        · push_neg at hnext
          have hle2 : hgt ≤ i * r + r := by
            have : (i + 1) * r = i * r + r := by ring
            omega
          have hmin : min (i * r + r) hgt = hgt := min_eq_right hle2
          rw [hmin, create_slices_go_nil]
          · simp [slice_ranges, IsTiling]
          · have : (i + 1) * r = i * r + r := by ring
            omega

theorem create_slices_go_lengths (width hgt r : ℕ) :
    ∀ (fuel i : ℕ) (c : List ℕ) (d : List ℚ),
      c.length = hgt * width - i * r * width →
      d.length = hgt * width - i * r * width →
      ∀ sl ∈ create_slices_go width hgt r fuel i c d,
        sl.color_slice.length = (sl.stop - sl.start) * width ∧
        sl.depth_slice.length = (sl.stop - sl.start) * width := by
  intro fuel
  induction fuel with
  | zero =>
      intro i c d hcl hdl sl hsl
      rw [create_slices_go_zero] at hsl
      exact absurd hsl (List.not_mem_nil sl)
  | succ n ih =>
      intro i c d hcl hdl sl hsl
      rw [create_slices_go_succ] at hsl
      by_cases hstart : hgt ≤ i * r
      · rw [if_pos hstart] at hsl
        exact absurd hsl (List.not_mem_nil sl)
      · rw [if_neg hstart] at hsl
        push_neg at hstart
        have hyend : min (i * r + r) hgt ≤ hgt := min_le_right _ _
        have hstartle : i * r ≤ min (i * r + r) hgt := le_min (by omega) (le_of_lt hstart)
        have hmul1 : i * r * width ≤ min (i * r + r) hgt * width :=
          Nat.mul_le_mul_right width hstartle
        have hmul2 : min (i * r + r) hgt * width ≤ hgt * width :=
          Nat.mul_le_mul_right width hyend
        have hlen_le : min (i * r + r) hgt * width - i * r * width ≤ c.length := by omega
        have hlen_le2 : min (i * r + r) hgt * width - i * r * width ≤ d.length := by omega
        rcases List.mem_cons.mp hsl with rfl | htail
        · refine ⟨?_, ?_⟩ <;> dsimp only
          · rw [List.length_take, min_eq_left hlen_le, Nat.sub_mul]
          · rw [List.length_take, min_eq_left hlen_le2, Nat.sub_mul]
        · have harith : ∀ ll : ℕ, ll = hgt * width - i * r * width →
              ll - (min (i * r + r) hgt * width - i * r * width) =
                hgt * width - (i + 1) * r * width := by
            intro ll hll
            have hsm : (i + 1) * r * width = i * r * width + r * width := by ring
            have h4 : (i * r + r) * width = i * r * width + r * width := by ring
            by_cases hnext : i * r + r ≤ hgt
            · rw [min_eq_left hnext]
              have h3 : (i * r + r) * width ≤ hgt * width :=
                Nat.mul_le_mul_right width hnext
              omega
            · push_neg at hnext
              rw [min_eq_right (le_of_lt hnext)]
              have h3 : hgt * width ≤ (i * r + r) * width :=
                Nat.mul_le_mul_right width (le_of_lt hnext)
              omega
          exact ih (i + 1) _ _
            (by rw [List.length_drop]; exact harith c.length hcl)
            (by rw [List.length_drop]; exact harith d.length hdl) sl htail

theorem create_slices_go_stop (width hgt r : ℕ) :
    ∀ (fuel i : ℕ) (c : List ℕ) (d : List ℚ),
      ∀ sl ∈ create_slices_go width hgt r fuel i c d,
        sl.stop = min (sl.start + r) hgt ∧ sl.start < hgt ∧ sl.width = width := by
  intro fuel
  induction fuel with
  | zero =>
      intro i c d sl hsl
      rw [create_slices_go_zero] at hsl
      exact absurd hsl (List.not_mem_nil sl)
  | succ n ih =>
      intro i c d sl hsl
      rw [create_slices_go_succ] at hsl
      by_cases hstart : hgt ≤ i * r
      · rw [if_pos hstart] at hsl
        exact absurd hsl (List.not_mem_nil sl)
      · rw [if_neg hstart] at hsl
        rcases List.mem_cons.mp hsl with rfl | htail
        · refine ⟨rfl, ?_, rfl⟩
          show i * r < hgt
          omega
        · exact ih (i + 1) _ _ sl htail

theorem create_slices_go_length_r1 (width hgt : ℕ) :
    ∀ (fuel i : ℕ) (c : List ℕ) (d : List ℚ), hgt ≤ i + fuel → i ≤ hgt →
      (create_slices_go width hgt 1 fuel i c d).length = hgt - i := by
  intro fuel
  induction fuel with
  | zero =>
      intro i c d h1 h2
      rw [create_slices_go_zero]
      simp
      omega
  | succ n ih =>
      intro i c d h1 h2
      by_cases hstart : hgt ≤ i * 1
      · rw [create_slices_go_nil width hgt 1 _ i c d hstart]
        simp
        omega
      · rw [create_slices_go_succ, if_neg hstart]
        rw [List.length_cons, ih (i + 1) _ _ (by omega) (by omega)]
        omega

theorem IsTiling.le {a b : ℕ} {L : List (ℕ × ℕ)} (h : IsTiling a L b) : a ≤ b := by
  induction L generalizing a with
  | nil => exact le_of_eq h
  | cons p rest ih =>
      obtain ⟨h1, h2, h3⟩ := h
      exact le_trans (le_of_lt h2) (ih h3)

theorem IsTiling.bounds {a b : ℕ} {L : List (ℕ × ℕ)} (h : IsTiling a L b) :
    ∀ p ∈ L, a ≤ p.1 ∧ p.2 ≤ b := by
  induction L generalizing a with
  | nil => intro p hp; exact absurd hp (List.not_mem_nil p)
  | cons q rest ih =>
      obtain ⟨h1, h2, h3⟩ := h
      intro p hp
      rcases List.mem_cons.mp hp with rfl | hmem
      · exact ⟨le_of_eq h1.symm, h3.le⟩
      · obtain ⟨ha, hb⟩ := ih h3 p hmem
        exact ⟨le_trans (le_of_lt h2) ha, hb⟩

theorem IsTiling.mem_iff {a b : ℕ} {L : List (ℕ × ℕ)} (h : IsTiling a L b) :
    ∀ y, (a ≤ y ∧ y < b) ↔ ∃ p ∈ L, p.1 ≤ y ∧ y < p.2 := by
  induction L generalizing a with
  | nil =>
      intro y
      have heq : a = b := h
      constructor
      · rintro ⟨h1, h2⟩
        omega
      · rintro ⟨p, hp, _⟩
        exact absurd hp (List.not_mem_nil p)
  | cons q rest ih =>
      obtain ⟨h1, h2, h3⟩ := h
      intro y
      have hqb : q.2 ≤ b := h3.le
      constructor
      · rintro ⟨hay, hyb⟩
        by_cases hy : y < q.2
        · exact ⟨q, List.mem_cons_self q rest, by omega, hy⟩
        · push_neg at hy
          obtain ⟨p, hp, hpy⟩ := (ih h3 y).mp ⟨hy, hyb⟩
          exact ⟨p, List.mem_cons_of_mem q hp, hpy⟩
      · rintro ⟨p, hp, hp1, hp2⟩
        rcases List.mem_cons.mp hp with rfl | hmem
        · omega
        · obtain ⟨hpa, hpb⟩ := h3.bounds p hmem
          constructor
          · omega
          · omega

theorem IsTiling.ranges_pairwise {a b : ℕ} {L : List (ℕ × ℕ)} (h : IsTiling a L b) :
    L.Pairwise (fun p q => p.2 ≤ q.1) := by
  induction L generalizing a with
  | nil => exact List.Pairwise.nil
  | cons q rest ih =>
      obtain ⟨h1, h2, h3⟩ := h
      refine List.Pairwise.cons ?_ (ih h3)
      intro p hp
      exact (h3.bounds p hp).1

theorem ceil_div_mul_ge (hgt N : ℕ) (hN : 1 ≤ N) : hgt ≤ N * ((hgt + N - 1) / N) := by
  have hmod := Nat.div_add_mod (hgt + N - 1) N
  have hlt : (hgt + N - 1) % N < N := Nat.mod_lt _ (by omega)
  omega

theorem ceil_div_pos (hgt N : ℕ) (hN : 1 ≤ N) (hh : 1 ≤ hgt) :
    1 ≤ (hgt + N - 1) / N := by
  rw [Nat.le_div_iff_mul_le (by omega)]
  omega

/-- C1 (confirmed): for every target and worker count N at least 1, the
slices of create_slices form contiguous non-overlapping row ranges tiling
exactly [0, height); each slice's color and depth sub-buffers have length
(end - start) * width; each slice ends at min(start + rows_per_thread,
height) with rows_per_thread the ceiling division (height + N - 1) / N; and
when height < N only height slices are produced (the trailing ones are
absent, each remaining slice one row tall). -/
theorem claim_C01 (t : RenderTargetM) (N : ℕ) (hN : 1 ≤ N)
    (hc : t.color.length = t.width * t.height)
    (hd : t.depth.length = t.width * t.height) :
    IsTiling 0 (slice_ranges (t.create_slices N)) t.height ∧
    (∀ y, y < t.height ↔ ∃ s ∈ t.create_slices N, s.start ≤ y ∧ y < s.stop) ∧
    (slice_ranges (t.create_slices N)).Pairwise (fun p q => p.2 ≤ q.1) ∧
    (∀ s ∈ t.create_slices N,
      s.color_slice.length = (s.stop - s.start) * t.width ∧
      s.depth_slice.length = (s.stop - s.start) * t.width) ∧
    (∀ s ∈ t.create_slices N, s.stop = min (s.start + (t.height + N - 1) / N) t.height) ∧
    (t.height < N → (t.create_slices N).length = t.height) := by
  set r := (t.height + N - 1) / N with hrdef
  have htiling : IsTiling 0 (slice_ranges (t.create_slices N)) t.height := by
    by_cases hh : 1 ≤ t.height
    · have hr1 : 1 ≤ r := ceil_div_pos t.height N hN hh
      have hcov : t.height ≤ 0 * r + N * r := by
        have h2 := ceil_div_mul_ge t.height N hN
        rw [← hrdef] at h2
        omega
      have := create_slices_go_tiling t.width t.height r hr1 N 0 t.color t.depth
        (by omega) hcov
      simpa [RenderTargetM.create_slices, ← hrdef] using this
    · have hz : t.height = 0 := by omega
      rw [RenderTargetM.create_slices]
      rw [create_slices_go_nil _ _ _ _ _ _ _ (by omega)]
      simp [slice_ranges, IsTiling, hz]
  refine ⟨htiling, ?_, htiling.ranges_pairwise, ?_, ?_, ?_⟩
  · intro y
    have := htiling.mem_iff y
    simp only [slice_ranges, List.mem_map] at this
    constructor
    · intro hy
      obtain ⟨p, hp, hp1, hp2⟩ := this.mp ⟨Nat.zero_le y, hy⟩
      obtain ⟨s, hs, rfl⟩ := hp
      exact ⟨s, hs, hp1, hp2⟩
    · rintro ⟨s, hs, h1, h2⟩
      exact (this.mpr ⟨(s.start, s.stop), ⟨s, hs, rfl⟩, h1, h2⟩).2
  · intro s hs
    rw [RenderTargetM.create_slices] at hs
    exact create_slices_go_lengths t.width t.height r N 0 t.color t.depth
      (by rw [hc]; ring_nf; omega) (by rw [hd]; ring_nf; omega) s hs
  · intro s hs
    rw [RenderTargetM.create_slices] at hs
    exact (create_slices_go_stop t.width t.height r N 0 t.color t.depth s hs).1
  · intro hlt
    by_cases hh : 1 ≤ t.height
    · have hr1 : r = 1 := by
        rw [hrdef]
        exact Nat.div_eq_of_lt_le (by omega) (by omega)
      rw [RenderTargetM.create_slices, ← hrdef, hr1]
      have := create_slices_go_length_r1 t.width t.height N 0 t.color t.depth
        (by omega) (by omega)
      simpa using this
    · have hz : t.height = 0 := by omega
      rw [RenderTargetM.create_slices]
      rw [create_slices_go_nil _ _ _ _ _ _ _ (by omega)]
      simp [hz]

/-- Witness for C1 at a 2 by 3 target split for 2 workers. -/
theorem claim_C01_witness :
    ((1 : ℕ) ≤ 2) ∧
    ((RenderTargetM.new 2 3).color.length =
      (RenderTargetM.new 2 3).width * (RenderTargetM.new 2 3).height) ∧
    ((RenderTargetM.new 2 3).depth.length =
      (RenderTargetM.new 2 3).width * (RenderTargetM.new 2 3).height) ∧
    IsTiling 0 (slice_ranges ((RenderTargetM.new 2 3).create_slices 2))
      (RenderTargetM.new 2 3).height := by
  have hc : (RenderTargetM.new 2 3).color.length =
      (RenderTargetM.new 2 3).width * (RenderTargetM.new 2 3).height := by
    simp [RenderTargetM.new]
  have hd : (RenderTargetM.new 2 3).depth.length =
      (RenderTargetM.new 2 3).width * (RenderTargetM.new 2 3).height := by
    simp [RenderTargetM.new]
  exact ⟨by norm_num, hc, hd, (claim_C01 (RenderTargetM.new 2 3) 2 (by norm_num) hc hd).1⟩

theorem QuatM.mul_assoc (p q r : QuatM) : (p.mul q).mul r = p.mul (q.mul r) := by
  simp only [QuatM.mul, QuatM.mk.injEq]
  refine ⟨by ring, by ring, by ring, by ring⟩

theorem QuatM.rotate_mul (p q : QuatM) (v : Vec3M) :
    (p.mul q).rotate v = p.rotate (q.rotate v) := by
  simp only [QuatM.rotate, QuatM.mul, QuatM.conj, Vec3M.mk.injEq]
  refine ⟨by ring, by ring, by ring⟩

/-- Counterexample to C9 as stated: for the concrete orientation
(3/5, 0, 0, 4/5) and yaw and pitch rotations with half-angle cosine 3/5 and
sine 4/5, Camera::look does not return the pitch rotation left-multiplied
onto the yawed orientation, under either reading of the yawed orientation
(orientation times yaw or yaw times orientation). -/
theorem claim_C09_counterexample :
    Camera.look ⟨3/5, 0, 0, 4/5⟩ (3/5) (4/5) (3/5) (4/5) ≠
      (QuatM.from_axis_angle ⟨1, 0, 0⟩ (3/5) (4/5)).mul
        ((QuatM.mk (3/5) 0 0 (4/5)).mul (QuatM.from_axis_angle ⟨0, 1, 0⟩ (3/5) (4/5))) ∧
    Camera.look ⟨3/5, 0, 0, 4/5⟩ (3/5) (4/5) (3/5) (4/5) ≠
      (QuatM.from_axis_angle ⟨1, 0, 0⟩ (3/5) (4/5)).mul
        ((QuatM.from_axis_angle ⟨0, 1, 0⟩ (3/5) (4/5)).mul (QuatM.mk (3/5) 0 0 (4/5))) := by
  constructor <;>
    norm_num [Camera.look, QuatM.from_axis_angle, QuatM.mul, QuatM.mk.injEq]

/-- C9 (corrected): Camera::look right-multiplies both rotations onto the
orientation: the result is orientation * pitch_rot * yaw_rot, equal to the
orientation right-multiplied by the product pitch_rot * yaw_rot (so the
pitch rotation is left-multiplied onto the yaw rotation, not onto the yawed
orientation), and as a rotation action the yaw factor acts first, then the
pitch factor, then the previous orientation — both axes therefore act in the
orientation's local frame, not about the world-up axis. -/
theorem claim_C09 (o : QuatM) (yc ys pc ps : ℚ) :
    Camera.look o yc ys pc ps =
      o.mul ((QuatM.from_axis_angle ⟨1, 0, 0⟩ pc ps).mul
        (QuatM.from_axis_angle ⟨0, 1, 0⟩ yc ys)) ∧
    (∀ v : Vec3M, (Camera.look o yc ys pc ps).rotate v =
      o.rotate ((QuatM.from_axis_angle ⟨1, 0, 0⟩ pc ps).rotate
        ((QuatM.from_axis_angle ⟨0, 1, 0⟩ yc ys).rotate v))) := by
  constructor
  · exact QuatM.mul_assoc o _ _
  · intro v
    rw [show Camera.look o yc ys pc ps =
      o.mul ((QuatM.from_axis_angle ⟨1, 0, 0⟩ pc ps).mul
        (QuatM.from_axis_angle ⟨0, 1, 0⟩ yc ys)) from QuatM.mul_assoc o _ _]
    rw [QuatM.rotate_mul, QuatM.rotate_mul]

theorem bres_loop_succ (plot : ℤ → ℤ → List ℕ → List ℕ) (dx dy sx sy x1 y1 : ℤ)
    (fuel : ℕ) (st : LineStateM) :
    bres_loop plot dx dy sx sy x1 y1 (fuel + 1) st =
      (if st.x = x1 ∧ st.y = y1 then some { st with buf := plot st.x st.y st.buf }
       else bres_loop plot dx dy sx sy x1 y1 fuel
         (bres_step dx dy sx sy { st with buf := plot st.x st.y st.buf })) := rfl

theorem bres_loop_reaches (plot : ℤ → ℤ → List ℕ → List ℕ) (x0 y0 x1 y1 dx dy sx sy : ℤ)
    (hdx0 : 0 ≤ dx) (hdy0 : dy ≤ 0)
    (hsx2 : sx = 1 ∨ sx = -1) (hsy2 : sy = 1 ∨ sy = -1)
    (hsxdx : sx * dx = x1 - x0) (hsydy : sy * (-dy) = y1 - y0) :
    ∀ (fuel : ℕ) (u v : ℤ) (buf : List ℕ),
      0 ≤ u → u ≤ dx → 0 ≤ v → v ≤ -dy →
      ((dx - u) + (-dy - v)).toNat + 1 ≤ fuel →
      ∃ st : LineStateM, bres_loop plot dx dy sx sy x1 y1 fuel
        ⟨x0 + sx * u, y0 + sy * v, dx + dy + u * dy + v * dx, buf⟩ = some st ∧
        st.x = x1 ∧ st.y = y1 := by
  intro fuel
  induction fuel with
  | zero =>
      intro u v buf hu0 hud hv0 hvd hfuel
      omega
  | succ n ih =>
      intro u v buf hu0 hud hv0 hvd hfuel
      have hxiff : x0 + sx * u = x1 ↔ u = dx := by
        rcases hsx2 with rfl | rfl <;> omega
      have hyiff : y0 + sy * v = y1 ↔ v = -dy := by
        rcases hsy2 with rfl | rfl <;> omega
      rw [bres_loop_succ]
      by_cases htgt : u = dx ∧ v = -dy
      · rw [if_pos (show _ ∧ _ from ⟨hxiff.mpr htgt.1, hyiff.mpr htgt.2⟩)]
        exact ⟨_, rfl, hxiff.mpr htgt.1, hyiff.mpr htgt.2⟩
      · rw [if_neg (by
          rintro ⟨hx, hy⟩
          exact htgt ⟨hxiff.mp hx, hyiff.mp hy⟩)]
        have hstep : bres_step dx dy sx sy
            ⟨x0 + sx * u, y0 + sy * v, dx + dy + u * dy + v * dx, plot (x0 + sx * u)
              (y0 + sy * v) buf⟩ =
            ⟨x0 + sx * (if dy ≤ 2 * (dx + dy + u * dy + v * dx) then u + 1 else u),
             y0 + sy * (if 2 * (dx + dy + u * dy + v * dx) ≤ dx then v + 1 else v),
             dx + dy + (if dy ≤ 2 * (dx + dy + u * dy + v * dx) then u + 1 else u) * dy +
               (if 2 * (dx + dy + u * dy + v * dx) ≤ dx then v + 1 else v) * dx,
             plot (x0 + sx * u) (y0 + sy * v) buf⟩ := by
          unfold bres_step
          dsimp only
          split_ifs <;> simp only [LineStateM.mk.injEq] <;> and_intros <;>
            first
              | trivial
              | ring
        rw [hstep]
        set e2 : ℤ := 2 * (dx + dy + u * dy + v * dx) with he2
        have hxstep : dy ≤ e2 → u < dx := by
          intro hb1
          rcases lt_or_eq_of_le hud with hlt | heq
          · exact hlt
          · exfalso
            have hvne : v ≠ -dy := fun hv => htgt ⟨heq, hv⟩
            have hvlt : v < -dy := by omega
            have hdyneg : dy < 0 := by omega
            have hkey : 0 ≤ dx * (-(1 + dy + v)) := mul_nonneg hdx0 (by omega)
            rw [he2, heq] at hb1
            nlinarith [hkey]
        have hystep : e2 ≤ dx → v < -dy := by
          intro hb2
          rcases lt_or_eq_of_le hvd with hlt | heq
          · exact hlt
          · exfalso
            have hune : u ≠ dx := fun hu => htgt ⟨hu, heq⟩
            have hult : u < dx := by omega
            have hdxpos : 1 ≤ dx := by omega
            have hkey : 0 ≤ (-dy) * (dx - 1 - u) := mul_nonneg (by omega) (by omega)
            rw [he2, heq] at hb2
            nlinarith [hkey]
        by_cases hb1 : dy ≤ e2 <;> by_cases hb2 : e2 ≤ dx
        · have hu2 := hxstep hb1
          have hv2 := hystep hb2
          rw [if_pos hb1, if_pos hb2]
          exact ih (u + 1) (v + 1) _ (by omega) (by omega) (by omega) (by omega) (by omega)
        · have hu2 := hxstep hb1
          rw [if_pos hb1, if_neg hb2]
          exact ih (u + 1) v _ (by omega) (by omega) (by omega) (by omega) (by omega)
        · have hv2 := hystep hb2
          rw [if_neg hb1, if_pos hb2]
          exact ih u (v + 1) _ (by omega) (by omega) (by omega) (by omega) (by omega)
        · exfalso
          omega

/-- C10 (confirmed): for every pair of integer endpoints (as produced by the
f32 to i32 casts on finite screen positions) and any plot action, the
Bresenham loop shared by renderer.rs draw_line and lib.rs draw_line, run with
the fuel dx - dy + 1 it is given in the model, reaches the endpoint (x1, y1)
and breaks there: the loop terminates after finitely many iterations. -/
theorem claim_C10 (plot : ℤ → ℤ → List ℕ → List ℕ) (x0 y0 x1 y1 : ℤ) (buf : List ℕ) :
    ∃ st : LineStateM,
      bres_loop plot (|x1 - x0|) (-|y1 - y0|) (if x0 < x1 then 1 else -1)
        (if y0 < y1 then 1 else -1) x1 y1 ((|x1 - x0| - -|y1 - y0|).toNat + 1)
        ⟨x0, y0, |x1 - x0| + -|y1 - y0|, buf⟩ = some st ∧
      st.x = x1 ∧ st.y = y1 := by
  have habs1 : 0 ≤ |x1 - x0| := abs_nonneg _
  have habs2 : 0 ≤ |y1 - y0| := abs_nonneg _
  have hsxdx : (if x0 < x1 then (1 : ℤ) else -1) * |x1 - x0| = x1 - x0 := by
    split_ifs with h
    · rw [abs_of_pos (by omega)]
      ring
    · rw [abs_of_nonpos (by omega)]
      ring
  have hsydy : (if y0 < y1 then (1 : ℤ) else -1) * (-(-|y1 - y0|)) = y1 - y0 := by
    split_ifs with h
    · rw [neg_neg, abs_of_pos (by omega)]
      ring
    · rw [neg_neg, abs_of_nonpos (by omega)]
      ring
  have := bres_loop_reaches plot x0 y0 x1 y1 (|x1 - x0|) (-|y1 - y0|)
    (if x0 < x1 then 1 else -1) (if y0 < y1 then 1 else -1)
    habs1 (by omega) (by split_ifs <;> simp) (by split_ifs <;> simp) hsxdx hsydy
    ((|x1 - x0| - -|y1 - y0|).toNat + 1) 0 0 buf le_rfl habs1 le_rfl (by omega)
    (by omega)
  simpa using this

theorem getElem?_isSome_iff {α : Type} (l : List α) (i : ℕ) :
    (l[i]?).isSome = true ↔ i < l.length := by
  constructor
  · intro h
    by_contra hc
    rw [List.getElem?_eq_none (by omega)] at h
    simp at h
  · intro h
    rw [List.getElem?_eq_getElem h]
    rfl

theorem natRangeIncl_nodup (a b : ℕ) : (natRangeIncl a b).Nodup := by
  unfold natRangeIncl
  refine List.Nodup.map ?_ (List.nodup_range _)
  intro m n h
  dsimp at h
  omega

theorem pixList_nodup (t : TriangleM) (screen : ℕ × ℕ) : (pixList t screen).Nodup := by
  unfold pixList
  rw [List.nodup_flatMap]
  constructor
  · intro yv _
    refine List.Nodup.map ?_ (natRangeIncl_nodup _ _)
    intro x1 x2 h
    simpa using congrArg Prod.fst h
  · refine List.Pairwise.imp ?_ (natRangeIncl_nodup _ _)
    intro y1 y2 hne p hp1 hp2
    simp only [List.mem_map] at hp1 hp2
    obtain ⟨xa, _, rfl⟩ := hp1
    obtain ⟨xb, _, hb⟩ := hp2
    have hyy : y2 = y1 := by simpa using congrArg Prod.snd hb
    exact hne hyy.symm

theorem pix_idx_ne (s : RenderSliceM) {x y x' y' : ℕ}
    (hx : x < s.width) (hx' : x' < s.width)
    (hy1 : s.start ≤ y) (hy2 : y < s.stop)
    (hy1' : s.start ≤ y') (hy2' : y' < s.stop)
    (hne : (x', y') ≠ (x, y)) : pix_idx s x' y' ≠ pix_idx s x y := by
  unfold pix_idx
  rcases Nat.lt_trichotomy y' y with hlt | heq | hgt
  · have h5 : (y' - s.start) + 1 ≤ y - s.start := by omega
    have h6 : ((y' - s.start) + 1) * s.width ≤ (y - s.start) * s.width :=
      Nat.mul_le_mul_right _ h5
    have h7 : (y' - s.start) * s.width + s.width = ((y' - s.start) + 1) * s.width := by
      ring
    omega
  · subst heq
    have hxne : x' ≠ x := by
      intro hc
      exact hne (by rw [hc])
    omega
  · have h5 : (y - s.start) + 1 ≤ y' - s.start := by omega
    have h6 : ((y - s.start) + 1) * s.width ≤ (y' - s.start) * s.width :=
      Nat.mul_le_mul_right _ h5
    have h7 : (y - s.start) * s.width + s.width = ((y - s.start) + 1) * s.width := by
      ring
    omega

theorem draw_pixel_cell_spec (nml : Vec3M → Vec3M) (t : TriangleM) (mat : MaterialM)
    (s : RenderSliceM) (x y : ℕ) (hlen : s.depth_slice.length = s.color_slice.length) :
    slice_cell (draw_pixel nml t mat s (x, y)) (pix_idx s x y) =
      draw_pixel_cell nml t mat s.start s.stop s.width x y (slice_cell s (pix_idx s x y)) := by
  unfold draw_pixel draw_pixel_cell slice_cell
  dsimp only
  simp only [List.getD_eq_getElem?_getD, getElem?_isSome_iff]
  by_cases h1 : y < s.start ∨ s.stop ≤ y
  · simp [h1]
  · by_cases h2 : (point_in_triangle t.a.position.xy t.b.position.xy t.c.position.xy
        ⟨(x : ℚ), (y : ℚ)⟩).1 = true
    · by_cases h3a : pix_idx s x y < s.color_slice.length
      · by_cases h3b : x < s.width
        · by_cases h4 : ((s.depth_slice[pix_idx s x y]?).getD 0) <
              interp_depth t (point_in_triangle t.a.position.xy t.b.position.xy
                t.c.position.xy ⟨(x : ℚ), (y : ℚ)⟩).2
          · simp [h1, h2, h3a, h3b, h4]
          · have hda : pix_idx s x y < s.depth_slice.length := by omega
            simp [h1, h2, h3a, h3b, h4, List.getElem?_set_eq_of_lt _ h3a,
              List.getElem?_set_eq_of_lt _ hda]
        · simp [h1, h2, h3a, h3b]
      · simp [h1, h2, h3a]
    · simp [h1, h2]

theorem draw_pixel_cell_frame (nml : Vec3M → Vec3M) (t : TriangleM) (mat : MaterialM)
    (s : RenderSliceM) {x y x' y' : ℕ}
    (hx : x < s.width) (hy1 : s.start ≤ y) (hy2 : y < s.stop)
    (hne : (x', y') ≠ (x, y)) :
    slice_cell (draw_pixel nml t mat s (x', y')) (pix_idx s x y) =
      slice_cell s (pix_idx s x y) := by
  unfold draw_pixel
  dsimp only
  split_ifs with h1 h2 h3 h4
  · rfl
  · rfl
  · push_neg at h1
    have hidxne : pix_idx s x' y' ≠ pix_idx s x y :=
      pix_idx_ne s hx h3.2 hy1 hy2 h1.1 h1.2 hne
    unfold slice_cell
    dsimp only
    refine congrArg₂ Prod.mk ?_ ?_
    · exact List.getElem?_set_ne hidxne
    · exact List.getElem?_set_ne hidxne
  · rfl
  · rfl

theorem foldl_draw_pixel_frame (nml : Vec3M → Vec3M) (t : TriangleM) (mat : MaterialM)
    (x y : ℕ) :
    ∀ (l : List (ℕ × ℕ)) (s : RenderSliceM),
      x < s.width → s.start ≤ y → y < s.stop → (x, y) ∉ l →
      slice_cell (l.foldl (fun acc p => draw_pixel nml t mat acc p) s) (pix_idx s x y) =
        slice_cell s (pix_idx s x y) := by
  intro l
  induction l with
  | nil =>
      intro s _ _ _ _
      rfl
  | cons p rest ih =>
      intro s hx h1 h2 hnot
      rw [List.foldl_cons]
      have hgeom := draw_pixel_geom nml t mat s p
      have hidx : pix_idx (draw_pixel nml t mat s p) x y = pix_idx s x y := by
        unfold pix_idx
        rw [hgeom.1, hgeom.2.2.1]
      have hframe : slice_cell (draw_pixel nml t mat s p) (pix_idx s x y) =
          slice_cell s (pix_idx s x y) := by
        rcases p with ⟨x', y'⟩
        exact draw_pixel_cell_frame nml t mat s hx h1 h2
          (fun hc => hnot (by rw [hc]; exact List.mem_cons_self _ _))
      rw [← hidx] at hframe ⊢
      rw [ih (draw_pixel nml t mat s p) (by omega) (by omega) (by omega)
        (fun hc => hnot (List.mem_cons_of_mem p hc)), hframe]

theorem foldl_draw_pixel_once (nml : Vec3M → Vec3M) (t : TriangleM) (mat : MaterialM)
    (x y : ℕ) :
    ∀ (l : List (ℕ × ℕ)) (s : RenderSliceM),
      x < s.width → s.start ≤ y → y < s.stop →
      s.depth_slice.length = s.color_slice.length →
      (x, y) ∈ l → l.Nodup →
      slice_cell (l.foldl (fun acc p => draw_pixel nml t mat acc p) s) (pix_idx s x y) =
        draw_pixel_cell nml t mat s.start s.stop s.width x y
          (slice_cell s (pix_idx s x y)) := by
  intro l
  induction l with
  | nil =>
      intro s _ _ _ _ hmem _
      exact absurd hmem (List.not_mem_nil _)
  | cons p rest ih =>
      intro s hx h1 h2 hlen hmem hnd
      rw [List.foldl_cons]
      have hgeom := draw_pixel_geom nml t mat s p
      have hidx : pix_idx (draw_pixel nml t mat s p) x y = pix_idx s x y := by
        unfold pix_idx
        rw [hgeom.1, hgeom.2.2.1]
      by_cases hp : p = (x, y)
      · subst hp
        have hnot : (x, y) ∉ rest := (List.nodup_cons.mp hnd).1
        have hframe := foldl_draw_pixel_frame nml t mat x y rest
          (draw_pixel nml t mat s (x, y)) (by omega) (by omega) (by omega) hnot
        rw [hidx] at hframe
        rw [hframe]
        exact draw_pixel_cell_spec nml t mat s x y hlen
      · have hrest : (x, y) ∈ rest := by
          rcases List.mem_cons.mp hmem with heq | hr
          · exact absurd heq.symm hp
          · exact hr
        have hframe : slice_cell (draw_pixel nml t mat s p) (pix_idx s x y) =
            slice_cell s (pix_idx s x y) := by
          rcases p with ⟨x', y'⟩
          exact draw_pixel_cell_frame nml t mat s hx h1 h2 hp
        have hiter := ih (draw_pixel nml t mat s p) (by omega) (by omega) (by omega)
          (by omega) hrest (List.nodup_cons.mp hnd).2
        rw [hidx, hframe] at hiter
        rw [hiter, hgeom.1, hgeom.2.1, hgeom.2.2.1]

theorem draw_triangle_cell (nml : Vec3M → Vec3M) (screen : ℕ × ℕ) (s : RenderSliceM)
    (t : TriangleM) (mat : MaterialM) (x y : ℕ)
    (hx : x < s.width) (h1 : s.start ≤ y) (h2 : y < s.stop)
    (hlen : s.depth_slice.length = s.color_slice.length)
    (hmem : (x, y) ∈ pixList t screen) :
    slice_cell (draw_triangle nml screen s t mat) (pix_idx s x y) =
      draw_pixel_cell nml t mat s.start s.stop s.width x y
        (slice_cell s (pix_idx s x y)) := by
  unfold draw_triangle
  exact foldl_draw_pixel_once nml t mat x y (pixList t screen) s hx h1 h2 hlen
    hmem (pixList_nodup t screen)

/-- C3 (confirmed): in the per-pixel body of draw_triangle, a candidate
pixel (one inside the triangle and within the slice row range, image width
and buffer bounds) is skipped exactly when its interpolated depth exceeds
the stored depth at that pixel, and is shaded and written (both color and
depth) otherwise; consequently, for two triangles both covering the same
pixel at different depths, and a stored depth both of them pass (as after
clear, whose sentinel f32 MAX exceeds every finite depth), the pixel's
final color and depth come from the triangle with the smaller depth in
either drawing order. -/
theorem claim_C03 (nml : Vec3M → Vec3M) (screen : ℕ × ℕ) (s : RenderSliceM)
    (t1 t2 : TriangleM) (m1 m2 : MaterialM) (x y : ℕ)
    (hlen : s.depth_slice.length = s.color_slice.length)
    (hy1 : s.start ≤ y) (hy2 : y < s.stop) (hx : x < s.width)
    (hidx : pix_idx s x y < s.color_slice.length)
    (hm1 : (x, y) ∈ pixList t1 screen) (hm2 : (x, y) ∈ pixList t2 screen)
    (hin1 : (point_in_triangle t1.a.position.xy t1.b.position.xy t1.c.position.xy ⟨(x : ℚ), (y : ℚ)⟩).1 = true)
    (hin2 : (point_in_triangle t2.a.position.xy t2.b.position.xy t2.c.position.xy ⟨(x : ℚ), (y : ℚ)⟩).1 = true)
    (hlt : interp_depth t1 (point_in_triangle t1.a.position.xy t1.b.position.xy t1.c.position.xy ⟨(x : ℚ), (y : ℚ)⟩).2 < interp_depth t2 (point_in_triangle t2.a.position.xy t2.b.position.xy t2.c.position.xy ⟨(x : ℚ), (y : ℚ)⟩).2) :
    (s.depth_slice.getD (pix_idx s x y) 0 < interp_depth t1 (point_in_triangle t1.a.position.xy t1.b.position.xy t1.c.position.xy ⟨(x : ℚ), (y : ℚ)⟩).2 →
      slice_cell (draw_triangle nml screen s t1 m1) (pix_idx s x y) =
        slice_cell s (pix_idx s x y)) ∧
    (interp_depth t1 (point_in_triangle t1.a.position.xy t1.b.position.xy t1.c.position.xy ⟨(x : ℚ), (y : ℚ)⟩).2 ≤ s.depth_slice.getD (pix_idx s x y) 0 →
      slice_cell (draw_triangle nml screen s t1 m1) (pix_idx s x y) =
        (some (shade_material nml m1 t1 (point_in_triangle t1.a.position.xy t1.b.position.xy t1.c.position.xy ⟨(x : ℚ), (y : ℚ)⟩).2).as_u32, some (interp_depth t1 (point_in_triangle t1.a.position.xy t1.b.position.xy t1.c.position.xy ⟨(x : ℚ), (y : ℚ)⟩).2))) ∧
    (interp_depth t2 (point_in_triangle t2.a.position.xy t2.b.position.xy t2.c.position.xy ⟨(x : ℚ), (y : ℚ)⟩).2 ≤ s.depth_slice.getD (pix_idx s x y) 0 →
      slice_cell (draw_triangle nml screen (draw_triangle nml screen s t1 m1) t2 m2)
          (pix_idx s x y) = (some (shade_material nml m1 t1 (point_in_triangle t1.a.position.xy t1.b.position.xy t1.c.position.xy ⟨(x : ℚ), (y : ℚ)⟩).2).as_u32, some (interp_depth t1 (point_in_triangle t1.a.position.xy t1.b.position.xy t1.c.position.xy ⟨(x : ℚ), (y : ℚ)⟩).2)) ∧
      slice_cell (draw_triangle nml screen (draw_triangle nml screen s t2 m2) t1 m1)
          (pix_idx s x y) = (some (shade_material nml m1 t1 (point_in_triangle t1.a.position.xy t1.b.position.xy t1.c.position.xy ⟨(x : ℚ), (y : ℚ)⟩).2).as_u32, some (interp_depth t1 (point_in_triangle t1.a.position.xy t1.b.position.xy t1.c.position.xy ⟨(x : ℚ), (y : ℚ)⟩).2))) := by
  have hsome : (slice_cell s (pix_idx s x y)).1.isSome = true := by
    unfold slice_cell
    exact (getElem?_isSome_iff _ _).mpr hidx
  have hgd : ((slice_cell s (pix_idx s x y)).2).getD 0 =
      s.depth_slice.getD (pix_idx s x y) 0 := by
    unfold slice_cell
    exact (List.getD_eq_getElem?_getD _ _ _).symm
  have heval : ∀ (tt : TriangleM) (mm : MaterialM) (cell : Option ℕ × Option ℚ),
      (point_in_triangle tt.a.position.xy tt.b.position.xy tt.c.position.xy
        ⟨(x : ℚ), (y : ℚ)⟩).1 = true →
      cell.1.isSome = true →
      draw_pixel_cell nml tt mm s.start s.stop s.width x y cell =
        if (cell.2).getD 0 < interp_depth tt (point_in_triangle tt.a.position.xy
            tt.b.position.xy tt.c.position.xy ⟨(x : ℚ), (y : ℚ)⟩).2 then cell
        else (some (shade_material nml mm tt (point_in_triangle tt.a.position.xy
            tt.b.position.xy tt.c.position.xy ⟨(x : ℚ), (y : ℚ)⟩).2).as_u32,
          some (interp_depth tt (point_in_triangle tt.a.position.xy tt.b.position.xy
            tt.c.position.xy ⟨(x : ℚ), (y : ℚ)⟩).2)) := by
    intro tt mm cell hintt hsomet
    unfold draw_pixel_cell
    dsimp only
    rw [if_neg (show ¬(y < s.start ∨ s.stop ≤ y) by omega), if_pos hintt,
      if_pos ⟨hsomet, hx⟩]
  have hchar1 := draw_triangle_cell nml screen s t1 m1 x y hx hy1 hy2 hlen hm1
  refine ⟨?_, ?_, ?_⟩
  · intro hskip
    rw [hchar1, heval t1 m1 _ hin1 hsome, if_pos (by rw [hgd]; exact hskip)]
  · intro hwrite
    rw [hchar1, heval t1 m1 _ hin1 hsome, if_neg (by rw [hgd]; exact not_lt.mpr hwrite)]
  · intro hd2
    have hd1 : interp_depth t1 (point_in_triangle t1.a.position.xy t1.b.position.xy t1.c.position.xy ⟨(x : ℚ), (y : ℚ)⟩).2 ≤ s.depth_slice.getD (pix_idx s x y) 0 :=
      le_trans (le_of_lt hlt) hd2
    constructor
    · -- draw t1 first, then t2: t2 is skipped at this pixel
      set s1 := draw_triangle nml screen s t1 m1 with hs1
      have hgeom1 := draw_triangle_geom nml screen s t1 m1
      have hidx1 : pix_idx s1 x y = pix_idx s x y := by
        unfold pix_idx
        rw [hs1, hgeom1.1, hgeom1.2.2.1]
      have hcellA : slice_cell s1 (pix_idx s x y) = (some (shade_material nml m1 t1 (point_in_triangle t1.a.position.xy t1.b.position.xy t1.c.position.xy ⟨(x : ℚ), (y : ℚ)⟩).2).as_u32, some (interp_depth t1 (point_in_triangle t1.a.position.xy t1.b.position.xy t1.c.position.xy ⟨(x : ℚ), (y : ℚ)⟩).2)) := by
        rw [hs1, hchar1, heval t1 m1 _ hin1 hsome,
          if_neg (by rw [hgd]; exact not_lt.mpr hd1)]
      have hlen1 : s1.depth_slice.length = s1.color_slice.length := by
        rw [hs1, hgeom1.2.2.2.1, hgeom1.2.2.2.2]
        exact hlen
      have hchar2 := draw_triangle_cell nml screen s1 t2 m2 x y
        (by rw [hs1, hgeom1.2.2.1]; exact hx)
        (by rw [hs1, hgeom1.1]; exact hy1)
        (by rw [hs1, hgeom1.2.1]; exact hy2) hlen1 hm2
      rw [hidx1] at hchar2
      rw [hchar2, hs1, hgeom1.1, hgeom1.2.1, hgeom1.2.2.1, ← hs1, hcellA,
        heval t2 m2 _ hin2 (by rfl),
        if_pos (by simpa using hlt)]
    · -- draw t2 first, then t1: t1 overwrites at this pixel
      set s2 := draw_triangle nml screen s t2 m2 with hs2
      have hgeom2 := draw_triangle_geom nml screen s t2 m2
      have hidx2 : pix_idx s2 x y = pix_idx s x y := by
        unfold pix_idx
        rw [hs2, hgeom2.1, hgeom2.2.2.1]
      have hchar2 := draw_triangle_cell nml screen s t2 m2 x y hx hy1 hy2 hlen hm2
      have hcellB : slice_cell s2 (pix_idx s x y) =
          (some (shade_material nml m2 t2 (point_in_triangle t2.a.position.xy t2.b.position.xy t2.c.position.xy ⟨(x : ℚ), (y : ℚ)⟩).2).as_u32, some (interp_depth t2 (point_in_triangle t2.a.position.xy t2.b.position.xy t2.c.position.xy ⟨(x : ℚ), (y : ℚ)⟩).2)) := by
        rw [hs2, hchar2, heval t2 m2 _ hin2 hsome,
          if_neg (by rw [hgd]; exact not_lt.mpr hd2)]
      have hlen2 : s2.depth_slice.length = s2.color_slice.length := by
        rw [hs2, hgeom2.2.2.2.1, hgeom2.2.2.2.2]
        exact hlen
      have hchar1b := draw_triangle_cell nml screen s2 t1 m1 x y
        (by rw [hs2, hgeom2.2.2.1]; exact hx)
        (by rw [hs2, hgeom2.1]; exact hy1)
        (by rw [hs2, hgeom2.2.1]; exact hy2) hlen2 hm1
      rw [hidx2] at hchar1b
      rw [hchar1b, hs2, hgeom2.1, hgeom2.2.1, hgeom2.2.2.1, ← hs2, hcellB,
        heval t1 m1 _ hin1 (by rfl),
        if_neg (by simpa using not_lt.mpr (le_of_lt hlt))]

/-- Witness for C3: two triangles over the same screen footprint at depths
1 and 2 covering pixel (1, 1) of a freshly cleared 4 by 4 slice. -/
theorem claim_C03_witness :
    ((point_in_triangle (⟨⟨⟨0, 0, 1, 1⟩, none, none, none⟩, ⟨⟨0, 10, 1, 1⟩, none, none, none⟩, ⟨⟨10, 0, 1, 1⟩, none, none, none⟩⟩ : TriangleM).a.position.xy (⟨⟨⟨0, 0, 1, 1⟩, none, none, none⟩, ⟨⟨0, 10, 1, 1⟩, none, none, none⟩, ⟨⟨10, 0, 1, 1⟩, none, none, none⟩⟩ : TriangleM).b.position.xy (⟨⟨⟨0, 0, 1, 1⟩, none, none, none⟩, ⟨⟨0, 10, 1, 1⟩, none, none, none⟩, ⟨⟨10, 0, 1, 1⟩, none, none, none⟩⟩ : TriangleM).c.position.xy ⟨(1 : ℚ), (1 : ℚ)⟩).1 = true) ∧
    ((point_in_triangle (⟨⟨⟨0, 0, 2, 1⟩, none, none, none⟩, ⟨⟨0, 10, 2, 1⟩, none, none, none⟩, ⟨⟨10, 0, 2, 1⟩, none, none, none⟩⟩ : TriangleM).a.position.xy (⟨⟨⟨0, 0, 2, 1⟩, none, none, none⟩, ⟨⟨0, 10, 2, 1⟩, none, none, none⟩, ⟨⟨10, 0, 2, 1⟩, none, none, none⟩⟩ : TriangleM).b.position.xy (⟨⟨⟨0, 0, 2, 1⟩, none, none, none⟩, ⟨⟨0, 10, 2, 1⟩, none, none, none⟩, ⟨⟨10, 0, 2, 1⟩, none, none, none⟩⟩ : TriangleM).c.position.xy ⟨(1 : ℚ), (1 : ℚ)⟩).1 = true) ∧
    (interp_depth (⟨⟨⟨0, 0, 1, 1⟩, none, none, none⟩, ⟨⟨0, 10, 1, 1⟩, none, none, none⟩, ⟨⟨10, 0, 1, 1⟩, none, none, none⟩⟩ : TriangleM) (point_in_triangle (⟨⟨⟨0, 0, 1, 1⟩, none, none, none⟩, ⟨⟨0, 10, 1, 1⟩, none, none, none⟩, ⟨⟨10, 0, 1, 1⟩, none, none, none⟩⟩ : TriangleM).a.position.xy (⟨⟨⟨0, 0, 1, 1⟩, none, none, none⟩, ⟨⟨0, 10, 1, 1⟩, none, none, none⟩, ⟨⟨10, 0, 1, 1⟩, none, none, none⟩⟩ : TriangleM).b.position.xy (⟨⟨⟨0, 0, 1, 1⟩, none, none, none⟩, ⟨⟨0, 10, 1, 1⟩, none, none, none⟩, ⟨⟨10, 0, 1, 1⟩, none, none, none⟩⟩ : TriangleM).c.position.xy ⟨(1 : ℚ), (1 : ℚ)⟩).2 < interp_depth (⟨⟨⟨0, 0, 2, 1⟩, none, none, none⟩, ⟨⟨0, 10, 2, 1⟩, none, none, none⟩, ⟨⟨10, 0, 2, 1⟩, none, none, none⟩⟩ : TriangleM) (point_in_triangle (⟨⟨⟨0, 0, 2, 1⟩, none, none, none⟩, ⟨⟨0, 10, 2, 1⟩, none, none, none⟩, ⟨⟨10, 0, 2, 1⟩, none, none, none⟩⟩ : TriangleM).a.position.xy (⟨⟨⟨0, 0, 2, 1⟩, none, none, none⟩, ⟨⟨0, 10, 2, 1⟩, none, none, none⟩, ⟨⟨10, 0, 2, 1⟩, none, none, none⟩⟩ : TriangleM).b.position.xy (⟨⟨⟨0, 0, 2, 1⟩, none, none, none⟩, ⟨⟨0, 10, 2, 1⟩, none, none, none⟩, ⟨⟨10, 0, 2, 1⟩, none, none, none⟩⟩ : TriangleM).c.position.xy ⟨(1 : ℚ), (1 : ℚ)⟩).2) ∧
    ((1, 1) ∈ pixList (⟨⟨⟨0, 0, 1, 1⟩, none, none, none⟩, ⟨⟨0, 10, 1, 1⟩, none, none, none⟩, ⟨⟨10, 0, 1, 1⟩, none, none, none⟩⟩ : TriangleM) (4, 4)) ∧
    slice_cell (draw_triangle (fun v => v) (4, 4)
        (draw_triangle (fun v => v) (4, 4) (⟨List.replicate 16 0, List.replicate 16 f32MAX, 0, 4, 4⟩ : RenderSliceM)
          (⟨⟨⟨0, 0, 2, 1⟩, none, none, none⟩, ⟨⟨0, 10, 2, 1⟩, none, none, none⟩, ⟨⟨10, 0, 2, 1⟩, none, none, none⟩⟩ : TriangleM) (MaterialM.SolidColor ⟨0, 1, 0, 1⟩))
        (⟨⟨⟨0, 0, 1, 1⟩, none, none, none⟩, ⟨⟨0, 10, 1, 1⟩, none, none, none⟩, ⟨⟨10, 0, 1, 1⟩, none, none, none⟩⟩ : TriangleM) (MaterialM.SolidColor ⟨1, 0, 0, 1⟩)) (pix_idx (⟨List.replicate 16 0, List.replicate 16 f32MAX, 0, 4, 4⟩ : RenderSliceM) 1 1) =
      (some (shade_material (fun v => v) (MaterialM.SolidColor ⟨1, 0, 0, 1⟩) (⟨⟨⟨0, 0, 1, 1⟩, none, none, none⟩, ⟨⟨0, 10, 1, 1⟩, none, none, none⟩, ⟨⟨10, 0, 1, 1⟩, none, none, none⟩⟩ : TriangleM) (point_in_triangle (⟨⟨⟨0, 0, 1, 1⟩, none, none, none⟩, ⟨⟨0, 10, 1, 1⟩, none, none, none⟩, ⟨⟨10, 0, 1, 1⟩, none, none, none⟩⟩ : TriangleM).a.position.xy (⟨⟨⟨0, 0, 1, 1⟩, none, none, none⟩, ⟨⟨0, 10, 1, 1⟩, none, none, none⟩, ⟨⟨10, 0, 1, 1⟩, none, none, none⟩⟩ : TriangleM).b.position.xy (⟨⟨⟨0, 0, 1, 1⟩, none, none, none⟩, ⟨⟨0, 10, 1, 1⟩, none, none, none⟩, ⟨⟨10, 0, 1, 1⟩, none, none, none⟩⟩ : TriangleM).c.position.xy ⟨(1 : ℚ), (1 : ℚ)⟩).2).as_u32, some (interp_depth (⟨⟨⟨0, 0, 1, 1⟩, none, none, none⟩, ⟨⟨0, 10, 1, 1⟩, none, none, none⟩, ⟨⟨10, 0, 1, 1⟩, none, none, none⟩⟩ : TriangleM) (point_in_triangle (⟨⟨⟨0, 0, 1, 1⟩, none, none, none⟩, ⟨⟨0, 10, 1, 1⟩, none, none, none⟩, ⟨⟨10, 0, 1, 1⟩, none, none, none⟩⟩ : TriangleM).a.position.xy (⟨⟨⟨0, 0, 1, 1⟩, none, none, none⟩, ⟨⟨0, 10, 1, 1⟩, none, none, none⟩, ⟨⟨10, 0, 1, 1⟩, none, none, none⟩⟩ : TriangleM).b.position.xy (⟨⟨⟨0, 0, 1, 1⟩, none, none, none⟩, ⟨⟨0, 10, 1, 1⟩, none, none, none⟩, ⟨⟨10, 0, 1, 1⟩, none, none, none⟩⟩ : TriangleM).c.position.xy ⟨(1 : ℚ), (1 : ℚ)⟩).2)) := by
  have hw1 : (point_in_triangle (⟨⟨⟨0, 0, 1, 1⟩, none, none, none⟩, ⟨⟨0, 10, 1, 1⟩, none, none, none⟩, ⟨⟨10, 0, 1, 1⟩, none, none, none⟩⟩ : TriangleM).a.position.xy (⟨⟨⟨0, 0, 1, 1⟩, none, none, none⟩, ⟨⟨0, 10, 1, 1⟩, none, none, none⟩, ⟨⟨10, 0, 1, 1⟩, none, none, none⟩⟩ : TriangleM).b.position.xy (⟨⟨⟨0, 0, 1, 1⟩, none, none, none⟩, ⟨⟨0, 10, 1, 1⟩, none, none, none⟩, ⟨⟨10, 0, 1, 1⟩, none, none, none⟩⟩ : TriangleM).c.position.xy ⟨(1 : ℚ), (1 : ℚ)⟩).2 = ⟨4/5, 1/10, 1/10⟩ := by
    simp only [point_in_triangle, signed_area, Point2M.sub, Point2M.dot,
      perpendicular_vector, Vec4M.xy]
    norm_num
  have hw2 : (point_in_triangle (⟨⟨⟨0, 0, 2, 1⟩, none, none, none⟩, ⟨⟨0, 10, 2, 1⟩, none, none, none⟩, ⟨⟨10, 0, 2, 1⟩, none, none, none⟩⟩ : TriangleM).a.position.xy (⟨⟨⟨0, 0, 2, 1⟩, none, none, none⟩, ⟨⟨0, 10, 2, 1⟩, none, none, none⟩, ⟨⟨10, 0, 2, 1⟩, none, none, none⟩⟩ : TriangleM).b.position.xy (⟨⟨⟨0, 0, 2, 1⟩, none, none, none⟩, ⟨⟨0, 10, 2, 1⟩, none, none, none⟩, ⟨⟨10, 0, 2, 1⟩, none, none, none⟩⟩ : TriangleM).c.position.xy ⟨(1 : ℚ), (1 : ℚ)⟩).2 = ⟨4/5, 1/10, 1/10⟩ := by
    simp only [point_in_triangle, signed_area, Point2M.sub, Point2M.dot,
      perpendicular_vector, Vec4M.xy]
    norm_num
  have hin1 : (point_in_triangle (⟨⟨⟨0, 0, 1, 1⟩, none, none, none⟩, ⟨⟨0, 10, 1, 1⟩, none, none, none⟩, ⟨⟨10, 0, 1, 1⟩, none, none, none⟩⟩ : TriangleM).a.position.xy (⟨⟨⟨0, 0, 1, 1⟩, none, none, none⟩, ⟨⟨0, 10, 1, 1⟩, none, none, none⟩, ⟨⟨10, 0, 1, 1⟩, none, none, none⟩⟩ : TriangleM).b.position.xy (⟨⟨⟨0, 0, 1, 1⟩, none, none, none⟩, ⟨⟨0, 10, 1, 1⟩, none, none, none⟩, ⟨⟨10, 0, 1, 1⟩, none, none, none⟩⟩ : TriangleM).c.position.xy ⟨(1 : ℚ), (1 : ℚ)⟩).1 = true := by
    simp only [point_in_triangle, signed_area, Point2M.sub, Point2M.dot,
      perpendicular_vector, Vec4M.xy, Bool.and_eq_true, decide_eq_true_eq]
    norm_num
  have hin2 : (point_in_triangle (⟨⟨⟨0, 0, 2, 1⟩, none, none, none⟩, ⟨⟨0, 10, 2, 1⟩, none, none, none⟩, ⟨⟨10, 0, 2, 1⟩, none, none, none⟩⟩ : TriangleM).a.position.xy (⟨⟨⟨0, 0, 2, 1⟩, none, none, none⟩, ⟨⟨0, 10, 2, 1⟩, none, none, none⟩, ⟨⟨10, 0, 2, 1⟩, none, none, none⟩⟩ : TriangleM).b.position.xy (⟨⟨⟨0, 0, 2, 1⟩, none, none, none⟩, ⟨⟨0, 10, 2, 1⟩, none, none, none⟩, ⟨⟨10, 0, 2, 1⟩, none, none, none⟩⟩ : TriangleM).c.position.xy ⟨(1 : ℚ), (1 : ℚ)⟩).1 = true := by
    simp only [point_in_triangle, signed_area, Point2M.sub, Point2M.dot,
      perpendicular_vector, Vec4M.xy, Bool.and_eq_true, decide_eq_true_eq]
    norm_num
  have hd1 : interp_depth (⟨⟨⟨0, 0, 1, 1⟩, none, none, none⟩, ⟨⟨0, 10, 1, 1⟩, none, none, none⟩, ⟨⟨10, 0, 1, 1⟩, none, none, none⟩⟩ : TriangleM) (point_in_triangle (⟨⟨⟨0, 0, 1, 1⟩, none, none, none⟩, ⟨⟨0, 10, 1, 1⟩, none, none, none⟩, ⟨⟨10, 0, 1, 1⟩, none, none, none⟩⟩ : TriangleM).a.position.xy (⟨⟨⟨0, 0, 1, 1⟩, none, none, none⟩, ⟨⟨0, 10, 1, 1⟩, none, none, none⟩, ⟨⟨10, 0, 1, 1⟩, none, none, none⟩⟩ : TriangleM).b.position.xy (⟨⟨⟨0, 0, 1, 1⟩, none, none, none⟩, ⟨⟨0, 10, 1, 1⟩, none, none, none⟩, ⟨⟨10, 0, 1, 1⟩, none, none, none⟩⟩ : TriangleM).c.position.xy ⟨(1 : ℚ), (1 : ℚ)⟩).2 = 1 := by
    rw [hw1]
    have hr : recip_sum (⟨⟨⟨0, 0, 1, 1⟩, none, none, none⟩, ⟨⟨0, 10, 1, 1⟩, none, none, none⟩, ⟨⟨10, 0, 1, 1⟩, none, none, none⟩⟩ : TriangleM) ⟨4/5, 1/10, 1/10⟩ = 1 := by
      norm_num [recip_sum, vertex_recip, Vec3M.dot, epsGuard]
    rw [interp_depth, hr]
    norm_num [epsGuard]
  have hd2 : interp_depth (⟨⟨⟨0, 0, 2, 1⟩, none, none, none⟩, ⟨⟨0, 10, 2, 1⟩, none, none, none⟩, ⟨⟨10, 0, 2, 1⟩, none, none, none⟩⟩ : TriangleM) (point_in_triangle (⟨⟨⟨0, 0, 2, 1⟩, none, none, none⟩, ⟨⟨0, 10, 2, 1⟩, none, none, none⟩, ⟨⟨10, 0, 2, 1⟩, none, none, none⟩⟩ : TriangleM).a.position.xy (⟨⟨⟨0, 0, 2, 1⟩, none, none, none⟩, ⟨⟨0, 10, 2, 1⟩, none, none, none⟩, ⟨⟨10, 0, 2, 1⟩, none, none, none⟩⟩ : TriangleM).b.position.xy (⟨⟨⟨0, 0, 2, 1⟩, none, none, none⟩, ⟨⟨0, 10, 2, 1⟩, none, none, none⟩, ⟨⟨10, 0, 2, 1⟩, none, none, none⟩⟩ : TriangleM).c.position.xy ⟨(1 : ℚ), (1 : ℚ)⟩).2 = 2 := by
    rw [hw2]
    have hr : recip_sum (⟨⟨⟨0, 0, 2, 1⟩, none, none, none⟩, ⟨⟨0, 10, 2, 1⟩, none, none, none⟩, ⟨⟨10, 0, 2, 1⟩, none, none, none⟩⟩ : TriangleM) ⟨4/5, 1/10, 1/10⟩ = 1/2 := by
      norm_num [recip_sum, vertex_recip, Vec3M.dot, epsGuard]
    rw [interp_depth, hr, show |(1/2 : ℚ)| = 1/2 from abs_of_pos (by norm_num)]
    norm_num [epsGuard]
  have hb1 : BoundsM.new (⟨⟨⟨0, 0, 1, 1⟩, none, none, none⟩, ⟨⟨0, 10, 1, 1⟩, none, none, none⟩, ⟨⟨10, 0, 1, 1⟩, none, none, none⟩⟩ : TriangleM) (4, 4) = ⟨0, 0, 4, 4⟩ := by
    simp [BoundsM.new, min_def, max_def]
    norm_num
  have hb2 : BoundsM.new (⟨⟨⟨0, 0, 2, 1⟩, none, none, none⟩, ⟨⟨0, 10, 2, 1⟩, none, none, none⟩, ⟨⟨10, 0, 2, 1⟩, none, none, none⟩⟩ : TriangleM) (4, 4) = ⟨0, 0, 4, 4⟩ := by
    simp [BoundsM.new, min_def, max_def]
    norm_num
  have hcast0 : castU32 0 = 0 := by norm_num [castU32]
  have hcast4 : castU32 4 = 4 := by
    rw [castU32, if_neg (by norm_num)]
    norm_num
    decide
  have hm1 : (1, 1) ∈ pixList (⟨⟨⟨0, 0, 1, 1⟩, none, none, none⟩, ⟨⟨0, 10, 1, 1⟩, none, none, none⟩, ⟨⟨10, 0, 1, 1⟩, none, none, none⟩⟩ : TriangleM) (4, 4) := by
    unfold pixList BoundsM.x_range BoundsM.y_range
    rw [hb1]
    dsimp only
    rw [hcast0, hcast4]
    decide
  have hm2 : (1, 1) ∈ pixList (⟨⟨⟨0, 0, 2, 1⟩, none, none, none⟩, ⟨⟨0, 10, 2, 1⟩, none, none, none⟩, ⟨⟨10, 0, 2, 1⟩, none, none, none⟩⟩ : TriangleM) (4, 4) := by
    unfold pixList BoundsM.x_range BoundsM.y_range
    rw [hb2]
    dsimp only
    rw [hcast0, hcast4]
    decide
  have hlt : interp_depth (⟨⟨⟨0, 0, 1, 1⟩, none, none, none⟩, ⟨⟨0, 10, 1, 1⟩, none, none, none⟩, ⟨⟨10, 0, 1, 1⟩, none, none, none⟩⟩ : TriangleM) (point_in_triangle (⟨⟨⟨0, 0, 1, 1⟩, none, none, none⟩, ⟨⟨0, 10, 1, 1⟩, none, none, none⟩, ⟨⟨10, 0, 1, 1⟩, none, none, none⟩⟩ : TriangleM).a.position.xy (⟨⟨⟨0, 0, 1, 1⟩, none, none, none⟩, ⟨⟨0, 10, 1, 1⟩, none, none, none⟩, ⟨⟨10, 0, 1, 1⟩, none, none, none⟩⟩ : TriangleM).b.position.xy (⟨⟨⟨0, 0, 1, 1⟩, none, none, none⟩, ⟨⟨0, 10, 1, 1⟩, none, none, none⟩, ⟨⟨10, 0, 1, 1⟩, none, none, none⟩⟩ : TriangleM).c.position.xy ⟨(1 : ℚ), (1 : ℚ)⟩).2 < interp_depth (⟨⟨⟨0, 0, 2, 1⟩, none, none, none⟩, ⟨⟨0, 10, 2, 1⟩, none, none, none⟩, ⟨⟨10, 0, 2, 1⟩, none, none, none⟩⟩ : TriangleM) (point_in_triangle (⟨⟨⟨0, 0, 2, 1⟩, none, none, none⟩, ⟨⟨0, 10, 2, 1⟩, none, none, none⟩, ⟨⟨10, 0, 2, 1⟩, none, none, none⟩⟩ : TriangleM).a.position.xy (⟨⟨⟨0, 0, 2, 1⟩, none, none, none⟩, ⟨⟨0, 10, 2, 1⟩, none, none, none⟩, ⟨⟨10, 0, 2, 1⟩, none, none, none⟩⟩ : TriangleM).b.position.xy (⟨⟨⟨0, 0, 2, 1⟩, none, none, none⟩, ⟨⟨0, 10, 2, 1⟩, none, none, none⟩, ⟨⟨10, 0, 2, 1⟩, none, none, none⟩⟩ : TriangleM).c.position.xy ⟨(1 : ℚ), (1 : ℚ)⟩).2 := by
    rw [hd1, hd2]
    norm_num
  have hstored : ((⟨List.replicate 16 0, List.replicate 16 f32MAX, 0, 4, 4⟩ : RenderSliceM)).depth_slice.getD (pix_idx (⟨List.replicate 16 0, List.replicate 16 f32MAX, 0, 4, 4⟩ : RenderSliceM) 1 1) 0 = f32MAX := by
    have hp : pix_idx (⟨List.replicate 16 0, List.replicate 16 f32MAX, 0, 4, 4⟩ : RenderSliceM) 1 1 = 5 := by decide
    rw [hp]
    simp [List.getD, List.replicate]
  have hd2le : interp_depth (⟨⟨⟨0, 0, 2, 1⟩, none, none, none⟩, ⟨⟨0, 10, 2, 1⟩, none, none, none⟩, ⟨⟨10, 0, 2, 1⟩, none, none, none⟩⟩ : TriangleM) (point_in_triangle (⟨⟨⟨0, 0, 2, 1⟩, none, none, none⟩, ⟨⟨0, 10, 2, 1⟩, none, none, none⟩, ⟨⟨10, 0, 2, 1⟩, none, none, none⟩⟩ : TriangleM).a.position.xy (⟨⟨⟨0, 0, 2, 1⟩, none, none, none⟩, ⟨⟨0, 10, 2, 1⟩, none, none, none⟩, ⟨⟨10, 0, 2, 1⟩, none, none, none⟩⟩ : TriangleM).b.position.xy (⟨⟨⟨0, 0, 2, 1⟩, none, none, none⟩, ⟨⟨0, 10, 2, 1⟩, none, none, none⟩, ⟨⟨10, 0, 2, 1⟩, none, none, none⟩⟩ : TriangleM).c.position.xy ⟨(1 : ℚ), (1 : ℚ)⟩).2 ≤ ((⟨List.replicate 16 0, List.replicate 16 f32MAX, 0, 4, 4⟩ : RenderSliceM)).depth_slice.getD (pix_idx (⟨List.replicate 16 0, List.replicate 16 f32MAX, 0, 4, 4⟩ : RenderSliceM) 1 1) 0 := by
    rw [hd2, hstored]
    norm_num [f32MAX]
  have happ := claim_C03 (fun v => v) (4, 4) (⟨List.replicate 16 0, List.replicate 16 f32MAX, 0, 4, 4⟩ : RenderSliceM)
    (⟨⟨⟨0, 0, 1, 1⟩, none, none, none⟩, ⟨⟨0, 10, 1, 1⟩, none, none, none⟩, ⟨⟨10, 0, 1, 1⟩, none, none, none⟩⟩ : TriangleM) (⟨⟨⟨0, 0, 2, 1⟩, none, none, none⟩, ⟨⟨0, 10, 2, 1⟩, none, none, none⟩, ⟨⟨10, 0, 2, 1⟩, none, none, none⟩⟩ : TriangleM)
    (MaterialM.SolidColor ⟨1, 0, 0, 1⟩) (MaterialM.SolidColor ⟨0, 1, 0, 1⟩) 1 1
    (by simp) (by decide) (by decide) (by decide) (by decide)
    hm1 hm2 hin1 hin2 hlt
  exact ⟨hin1, hin2, hlt, hm1, (happ.2.2 hd2le).2⟩

theorem Mat4M.mul_mulVec (m n : Mat4M) (v : Vec4M) :
    (m.mul n).mulVec v = m.mulVec (n.mulVec v) := by
  simp only [Mat4M.mul, Mat4M.mulVec, Vec4M.dot, Mat4M.col0, Mat4M.col1, Mat4M.col2,
    Mat4M.col3, Vec4M.mk.injEq]
  refine ⟨by ring, by ring, by ring, by ring⟩

theorem clip_z_lt_of_depth_lt (sx sy near far : ℚ) (vm : Mat4M) (p : Vec3M)
    (hn : 0 < near) (hnf : near < far) (haff : vm.r3 = ⟨0, 0, 0, 1⟩)
    (hdepth : view_depth vm p < near) :
    (((perspectiveMatrix sx sy near far).mul vm).mulVec ⟨p.x, p.y, p.z, 1⟩).z < near := by
  rw [Mat4M.mul_mulVec]
  unfold view_depth at hdepth
  set w := vm.mulVec ⟨p.x, p.y, p.z, 1⟩ with hw
  have hww : w.w = 1 := by
    rw [hw]
    unfold Mat4M.mulVec
    rw [haff]
    simp [Vec4M.dot]
  simp only [perspectiveMatrix, Mat4M.mulVec, Vec4M.dot]
  rw [hww]
  have hD : 0 < far - near := by linarith
  have h1 : 0 * w.x + 0 * w.y + -(far + near) / (far - near) * w.z +
      -(2 * far * near) / (far - near) * 1 =
      (-(far + near) * w.z - 2 * far * near) / (far - near) := by
    ring
  rw [h1, div_lt_iff hD]
  nlinarith [mul_pos (show (0 : ℚ) < far + near by linarith)
    (show (0 : ℚ) < w.z + near by linarith), mul_pos hn hD]

theorem lib_to_screen_none_of_depth_lt (sx sy near far : ℚ) (vm : Mat4M) (W H : ℕ)
    (v : LVertexM) (hn : 0 < near) (hnf : near < far) (haff : vm.r3 = ⟨0, 0, 0, 1⟩)
    (hdepth : view_depth vm v.position < near) :
    lib_to_screen ((perspectiveMatrix sx sy near far).mul vm) near far W H v = none := by
  unfold lib_to_screen
  dsimp only
  rw [if_pos]
  left
  exact clip_z_lt_of_depth_lt sx sy near far vm v.position hn hnf haff hdepth

theorem filterMap_three_le {α β : Type} (f : α → Option β) (a b c : α)
    (h : f a = none ∨ f b = none ∨ f c = none) :
    ([a, b, c].filterMap f).length ≤ 2 := by
  rcases h with h | h | h <;>
    cases hfa : f a <;> cases hfb : f b <;> cases hfc : f c <;>
      simp_all [List.filterMap_cons]

theorem chunksExact3_short {α : Type} (l : List α) (h : l.length ≤ 2) :
    chunksExact3 l = [] := by
  match l, h with
  | [], _ => rfl
  | [a], _ => rfl
  | [a, b], _ => rfl
  | a :: b :: c :: rest, h => simp at h

/-- C2 (corrected): the lib.rs draw_buffer keeps a vertex only when its
clip-space z lies within [near, far] (and its screen position in bounds),
and clip z at least near implies view-space depth above near for any affine
view-model matrix and 0 < near < far; hence a triangle is kept only when
all three vertices have view depth at least near, and a triangle with any
vertex at view depth below near yields no screen triangle and contributes
zero pixels (the target is returned unchanged in every draw mode).  The
renderer.rs draw_buffer variant has no near test at all, refuted by the
separate counterexample. -/
theorem claim_C02 (sx sy near far : ℚ) (vm : Mat4M) (tgt : RenderTargetM)
    (v0 v1 v2 : LVertexM) (wire pts shaded : Bool)
    (hn : 0 < near) (hnf : near < far) (haff : vm.r3 = ⟨0, 0, 0, 1⟩) :
    (∀ v sv : LVertexM,
      lib_to_screen ((perspectiveMatrix sx sy near far).mul vm) near far
        tgt.width tgt.height v = some sv →
      near ≤ view_depth vm v.position) ∧
    ((view_depth vm v0.position < near ∨ view_depth vm v1.position < near ∨
        view_depth vm v2.position < near) →
      lib_draw_buffer (perspectiveMatrix sx sy near far) vm near far tgt
        [v0, v1, v2] wire pts shaded = tgt) := by
  constructor
  · intro v sv hsome
    by_contra hc
    push_neg at hc
    rw [lib_to_screen_none_of_depth_lt sx sy near far vm _ _ v hn hnf haff hc] at hsome
    exact Option.noConfusion hsome
  · intro hdepth
    unfold lib_draw_buffer
    dsimp only
    have hshort : ([v0, v1, v2].filterMap
        (lib_to_screen ((perspectiveMatrix sx sy near far).mul vm) near far
          tgt.width tgt.height)).length ≤ 2 := by
      apply filterMap_three_le
      rcases hdepth with h | h | h
      · exact Or.inl (lib_to_screen_none_of_depth_lt sx sy near far vm _ _ _ hn hnf haff h)
      · exact Or.inr (Or.inl
          (lib_to_screen_none_of_depth_lt sx sy near far vm _ _ _ hn hnf haff h))
      · exact Or.inr (Or.inr
          (lib_to_screen_none_of_depth_lt sx sy near far vm _ _ _ hn hnf haff h))
    rw [chunksExact3_short _ hshort]
    rfl

/-- Witness for C2 at the default-style camera (identity view), near 1,
far 3, and a triangle entirely at view depth 1/2. -/
theorem claim_C02_witness :
    ((0 : ℚ) < 1 ∧ (1 : ℚ) < 3 ∧ Mat4M.id.r3 = ⟨0, 0, 0, 1⟩ ∧
      view_depth Mat4M.id (⟨⟨0, 0, -1/2⟩, none⟩ : LVertexM).position < 1) ∧
    lib_draw_buffer (perspectiveMatrix 1 1 1 3) Mat4M.id 1 3 (RenderTargetM.new 4 4)
      [⟨⟨0, 0, -1/2⟩, none⟩, ⟨⟨0, 1/2, -1/2⟩, none⟩, ⟨⟨-1/2, 0, -1/2⟩, none⟩]
      true true true = RenderTargetM.new 4 4 := by
  have hd : view_depth Mat4M.id (⟨⟨0, 0, -1/2⟩, none⟩ : LVertexM).position < 1 := by
    norm_num [view_depth, Mat4M.mulVec, Vec4M.dot, Mat4M.id]
  refine ⟨⟨by norm_num, by norm_num, rfl, hd⟩, ?_⟩
  exact (claim_C02 1 1 1 3 Mat4M.id (RenderTargetM.new 4 4)
    ⟨⟨0, 0, -1/2⟩, none⟩ ⟨⟨0, 1/2, -1/2⟩, none⟩ ⟨⟨-1/2, 0, -1/2⟩, none⟩
    true true true (by norm_num) (by norm_num) rfl).2 (Or.inl hd)

/-- Counterexample to C2 as stated: in the renderer.rs draw_buffer vertex
stage (whose only filter is the screen-bounds visibility test), a triangle
whose three vertices all sit at view-space depth 1/2 — nearer than the
camera near distance 1 used to build the perspective matrix — is kept (all
three screen vertices are produced), and rasterizing the resulting screen
triangle writes a pixel into a freshly cleared slice, so the triangle
contributes a nonzero number of pixels. -/
theorem claim_C02_counterexample :
    (view_depth Mat4M.id ⟨0, 0, -1/2⟩ < 1 ∧ view_depth Mat4M.id ⟨0, 1/2, -1/2⟩ < 1 ∧
      view_depth Mat4M.id ⟨-1/2, 0, -1/2⟩ < 1) ∧
    screen_vertex_stage (perspectiveMatrix 1 1 1 3) Mat4M.id Mat4M.id Mat4M.id
      (fun v => v) (fun v => v) 4 4
      [⟨⟨0, 0, -1/2, 1⟩, none, none, none⟩, ⟨⟨0, 1/2, -1/2, 1⟩, none, none, none⟩,
       ⟨⟨-1/2, 0, -1/2, 1⟩, none, none, none⟩] =
      [⟨⟨2, 2, -4, 1⟩, none, none, none⟩, ⟨⟨2, 0, -4, 1⟩, none, none, none⟩, ⟨⟨0, 2, -4, 1⟩, none, none, none⟩] ∧
    (slice_cell (draw_triangle (fun v => v) (4, 4) (⟨List.replicate 16 0, List.replicate 16 f32MAX, 0, 4, 4⟩ : RenderSliceM) (⟨⟨⟨2, 2, -4, 1⟩, none, none, none⟩, ⟨⟨2, 0, -4, 1⟩, none, none, none⟩, ⟨⟨0, 2, -4, 1⟩, none, none, none⟩⟩ : TriangleM)
        (MaterialM.SolidColor ⟨1, 0, 0, 1⟩)) (pix_idx (⟨List.replicate 16 0, List.replicate 16 f32MAX, 0, 4, 4⟩ : RenderSliceM) 1 1)).1 = some 16711680 := by
  refine ⟨⟨?_, ?_, ?_⟩, ?_, ?_⟩
  · norm_num [view_depth, Mat4M.mulVec, Vec4M.dot, Mat4M.id]
  · norm_num [view_depth, Mat4M.mulVec, Vec4M.dot, Mat4M.id]
  · norm_num [view_depth, Mat4M.mulVec, Vec4M.dot, Mat4M.id]
  · norm_num [screen_vertex_stage, chunks3, Mat4M.mul, Mat4M.mulVec, Mat4M.col0,
      Mat4M.col1, Mat4M.col2, Mat4M.col3, Vec4M.dot, perspectiveMatrix, Mat4M.id,
      VertexM.world_to_clip, Mat4M.transformPoint, Vec4M.xyz, VertexM.clip_to_ndc,
      Vec4M.divScalar, VertexM.ndc_to_screen, VertexM.update_normal, List.all_cons,
      List.all_nil, Bool.and_eq_true, decide_eq_true_eq]
  · have hwT : (point_in_triangle (⟨⟨⟨2, 2, -4, 1⟩, none, none, none⟩, ⟨⟨2, 0, -4, 1⟩, none, none, none⟩, ⟨⟨0, 2, -4, 1⟩, none, none, none⟩⟩ : TriangleM).a.position.xy (⟨⟨⟨2, 2, -4, 1⟩, none, none, none⟩, ⟨⟨2, 0, -4, 1⟩, none, none, none⟩, ⟨⟨0, 2, -4, 1⟩, none, none, none⟩⟩ : TriangleM).b.position.xy (⟨⟨⟨2, 2, -4, 1⟩, none, none, none⟩, ⟨⟨2, 0, -4, 1⟩, none, none, none⟩, ⟨⟨0, 2, -4, 1⟩, none, none, none⟩⟩ : TriangleM).c.position.xy ⟨((1 : ℕ) : ℚ), ((1 : ℕ) : ℚ)⟩).2 = ⟨0, 1/2, 1/2⟩ := by
      simp only [point_in_triangle, signed_area, Point2M.sub, Point2M.dot,
        perpendicular_vector, Vec4M.xy]
      norm_num
    have hinT : (point_in_triangle (⟨⟨⟨2, 2, -4, 1⟩, none, none, none⟩, ⟨⟨2, 0, -4, 1⟩, none, none, none⟩, ⟨⟨0, 2, -4, 1⟩, none, none, none⟩⟩ : TriangleM).a.position.xy (⟨⟨⟨2, 2, -4, 1⟩, none, none, none⟩, ⟨⟨2, 0, -4, 1⟩, none, none, none⟩, ⟨⟨0, 2, -4, 1⟩, none, none, none⟩⟩ : TriangleM).b.position.xy (⟨⟨⟨2, 2, -4, 1⟩, none, none, none⟩, ⟨⟨2, 0, -4, 1⟩, none, none, none⟩, ⟨⟨0, 2, -4, 1⟩, none, none, none⟩⟩ : TriangleM).c.position.xy ⟨((1 : ℕ) : ℚ), ((1 : ℕ) : ℚ)⟩).1 = true := by
      simp only [point_in_triangle, signed_area, Point2M.sub, Point2M.dot,
        perpendicular_vector, Vec4M.xy, Bool.and_eq_true, decide_eq_true_eq]
      norm_num
    have hdT : interp_depth (⟨⟨⟨2, 2, -4, 1⟩, none, none, none⟩, ⟨⟨2, 0, -4, 1⟩, none, none, none⟩, ⟨⟨0, 2, -4, 1⟩, none, none, none⟩⟩ : TriangleM) (⟨0, 1/2, 1/2⟩ : Vec3M) = -4 := by
      have hr : recip_sum (⟨⟨⟨2, 2, -4, 1⟩, none, none, none⟩, ⟨⟨2, 0, -4, 1⟩, none, none, none⟩, ⟨⟨0, 2, -4, 1⟩, none, none, none⟩⟩ : TriangleM) ⟨0, 1/2, 1/2⟩ = -(1/4) := by
        norm_num [recip_sum, vertex_recip, Vec3M.dot, epsGuard]
      rw [interp_depth, hr, show |(-(1/4) : ℚ)| = 1/4 from by
        rw [abs_of_neg] <;> norm_num]
      norm_num [epsGuard]
    have hb : BoundsM.new (⟨⟨⟨2, 2, -4, 1⟩, none, none, none⟩, ⟨⟨2, 0, -4, 1⟩, none, none, none⟩, ⟨⟨0, 2, -4, 1⟩, none, none, none⟩⟩ : TriangleM) (4, 4) = ⟨0, 0, 2, 2⟩ := by
      simp [BoundsM.new, min_def, max_def]
      norm_num
    have hcast0 : castU32 0 = 0 := by norm_num [castU32]
    have hcast2 : castU32 2 = 2 := by
      rw [castU32, if_neg (by norm_num)]
      norm_num
      decide
    have hm : (1, 1) ∈ pixList (⟨⟨⟨2, 2, -4, 1⟩, none, none, none⟩, ⟨⟨2, 0, -4, 1⟩, none, none, none⟩, ⟨⟨0, 2, -4, 1⟩, none, none, none⟩⟩ : TriangleM) (4, 4) := by
      unfold pixList BoundsM.x_range BoundsM.y_range
      rw [hb]
      dsimp only
      rw [hcast0, hcast2]
      decide
    have hcell0 : slice_cell (⟨List.replicate 16 0, List.replicate 16 f32MAX, 0, 4, 4⟩ : RenderSliceM) (pix_idx (⟨List.replicate 16 0, List.replicate 16 f32MAX, 0, 4, 4⟩ : RenderSliceM) 1 1) = (some 0, some f32MAX) := by
      have hp : pix_idx (⟨List.replicate 16 0, List.replicate 16 f32MAX, 0, 4, 4⟩ : RenderSliceM) 1 1 = 5 := by decide
      rw [hp]
      simp [slice_cell, List.replicate]
    have hcast255 : castU32 ((1 : ℚ) * 255) = 255 := by
      rw [castU32, if_neg (by norm_num)]
      norm_num
      decide
    have hshade : (shade_material (fun v => v) (MaterialM.SolidColor ⟨1, 0, 0, 1⟩)
        (⟨⟨⟨2, 2, -4, 1⟩, none, none, none⟩, ⟨⟨2, 0, -4, 1⟩, none, none, none⟩, ⟨⟨0, 2, -4, 1⟩, none, none, none⟩⟩ : TriangleM) (⟨0, 1/2, 1/2⟩ : Vec3M)).as_u32 = 16711680 := by
      rw [shade_material]
      rw [ColorM.as_u32]
      dsimp only
      rw [hcast255, show castU32 ((0 : ℚ) * 255) = 0 from by norm_num [castU32]]
      decide
    have hchar := draw_triangle_cell (fun v => v) (4, 4) (⟨List.replicate 16 0, List.replicate 16 f32MAX, 0, 4, 4⟩ : RenderSliceM) (⟨⟨⟨2, 2, -4, 1⟩, none, none, none⟩, ⟨⟨2, 0, -4, 1⟩, none, none, none⟩, ⟨⟨0, 2, -4, 1⟩, none, none, none⟩⟩ : TriangleM)
      (MaterialM.SolidColor ⟨1, 0, 0, 1⟩) 1 1 (by decide) (by decide) (by decide)
      (by simp) hm
    rw [hchar, hcell0]
    unfold draw_pixel_cell
    dsimp only
    rw [if_neg (by decide : ¬((1 : ℕ) < 0 ∨ 4 ≤ (1 : ℕ))), if_pos hinT, hwT,
      if_pos (show (some (0 : ℕ)).isSome = true ∧ (1 : ℕ) < 4 from ⟨rfl, by decide⟩),
      hdT, if_neg (show ¬((some f32MAX).getD 0 < (-4 : ℚ)) from by
        simp only [Option.getD_some]
        norm_num [f32MAX]), hshade]

end SoftRast
